import Mathlib

/-!
Shallow embedding of the ABI-lowering and constant-encoding layer of the
rustc_codegen_nvvm backend (source files abi.rs and consts.rs), together
with theorems settling the specification claims.  Machine integers are
modelled as Nat, fallible code (paths that abort compilation via bug!,
assert! or fatal errors) returns Option, and the external type-remapping
collaborator (crate::int_replace::get_transformed_type) is a function
parameter.
-/

/-- Low-level (LLVM-like) types produced by the lowering code in abi.rs. -/
inductive LLType where
  | void : LLType
  | int (bits : Nat) : LLType
  | float32 : LLType
  | float64 : LLType
  | vector (elem : LLType) (count : Nat) : LLType
  | array (elem : LLType) (count : Nat) : LLType
  | struct_ (fields : List LLType) (packed : Bool) : LLType
  | ptr (pointee : LLType) (addrspace : Nat) : LLType
  | func (params : List LLType) (ret : LLType) (variadic : Bool) : LLType

mutual

/-- Structural equality test on lowered types; the backing type
representation interns types, so pointer identity in the source is
structural identity here. -/
def LLType.beq : LLType → LLType → Bool
  | .void, .void => true
  | .int a, .int b => a == b
  | .float32, .float32 => true
  | .float64, .float64 => true
  | .vector e n, .vector f m => LLType.beq e f && n == m
  | .array e n, .array f m => LLType.beq e f && n == m
  | .struct_ fs p, .struct_ gs q => LLType.beqList fs gs && p == q
  | .ptr e n, .ptr f m => LLType.beq e f && n == m
  | .func ps r v, .func qs s w => LLType.beqList ps qs && LLType.beq r s && v == w
  | _, _ => false

/-- Structural equality test on lists of lowered types. -/
def LLType.beqList : List LLType → List LLType → Bool
  | [], [] => true
  | a :: as_, b :: bs => LLType.beq a b && LLType.beqList as_ bs
  | _, _ => false

end

mutual

/-- Unpadded (packed) byte size of a lowered type: scalar sizes, with an
aggregate contributing the sum of its fields and no alignment padding.
Pointers are 8 bytes on the 64-bit target. -/
def LLType.packedSizeBytes : LLType → Nat
  | .void => 0
  | .int bits => (bits + 7) / 8
  | .float32 => 4
  | .float64 => 8
  | .vector e n => e.packedSizeBytes * n
  | .array e n => e.packedSizeBytes * n
  | .struct_ fields _ => LLType.packedSizeList fields
  | .ptr _ _ => 8
  | .func _ _ _ => 8

/-- Sum of the packed sizes of a list of field types. -/
def LLType.packedSizeList : List LLType → Nat
  | [] => 0
  | t :: ts => t.packedSizeBytes + LLType.packedSizeList ts

end

/-- Register chunk kinds, from rustc_target::abi::call::RegKind. -/
inductive RegKind where
  | integer
  | float
  | vector
deriving Repr, DecidableEq

/-- A machine register chunk: a kind together with a size in bytes
(rustc_target::abi::call::Reg; Size is byte-granular, bits = 8 * bytes). -/
structure Reg where
  kind : RegKind
  size : Nat
deriving Repr, DecidableEq

/-- Lowering of one register chunk (impl LlvmType for Reg, abi.rs):
Integer becomes an integer type of the chunk's bit width, Float becomes
f32 or f64 with any other width a fatal error, Vector becomes a raw i8
vector of the chunk's byte length. -/
def Reg.llvmType (r : Reg) : Option LLType :=
  match r.kind with
  | RegKind.integer => some (LLType.int (r.size * 8))
  | RegKind.float =>
    if r.size * 8 = 32 then some LLType.float32
    else if r.size * 8 = 64 then some LLType.float64
    else none
  | RegKind.vector => some (LLType.vector (LLType.int 8) r.size)

/-- A repeating register unit with a total byte size
(rustc_target::abi::call::Uniform). -/
structure Uniform where
  unit : Reg
  total : Nat
deriving Repr, DecidableEq

/-- A multi-register aggregate-passing strategy
(rustc_target::abi::call::CastTarget).  The source field prefix is
rendered pfx here because prefix is reserved in Lean. -/
structure CastTarget where
  pfx : List (Option RegKind)
  pfx_chunk_size : Nat
  rest : Uniform
deriving Repr, DecidableEq

/-- Byte count of the present prefix chunks of a cast target. -/
def CastTarget.pfxBytes (ct : CastTarget) : Nat :=
  (ct.pfx.filterMap id).length * ct.pfx_chunk_size

/-- Declared total byte size of a cast target, per the data-model
invariant: prefix bytes plus rest bytes. -/
def CastTarget.totalSize (ct : CastTarget) : Nat :=
  ct.pfxBytes + ct.rest.total

/-- Sequencing of a fallible map over a list (the iteration of the
prefix chunks, each lowered fallibly). -/
def optionMapList (f : α → Option β) : List α → Option (List β)
  | [] => some []
  | a :: rest => do
    let b ← f a
    let bs ← optionMapList f rest
    some (b :: bs)

/-- Lowering of a cast target (impl LlvmType for CastTarget, abi.rs):
with no prefix, a total of at most one unit simplifies to the bare unit
and an evenly divided total simplifies to an array; otherwise a
non-packed struct of the prefix chunks, the repeated rest units, and a
final integer for any sub-unit remainder.  A nonzero remainder with a
non-Integer rest unit is a fatal assertion failure, modelled as none. -/
def CastTarget.llvmType (ct : CastTarget) : Option LLType := do
  let rest_ll_unit ← ct.rest.unit.llvmType
  let rest_count :=
    if ct.rest.unit.size = 0 then 0 else ct.rest.total / ct.rest.unit.size
  let rem_bytes :=
    if ct.rest.unit.size = 0 then 0 else ct.rest.total % ct.rest.unit.size
  if ct.pfx.all Option.isNone ∧ ct.rest.total ≤ ct.rest.unit.size then
    some rest_ll_unit
  else if ct.pfx.all Option.isNone ∧ rem_bytes = 0 then
    some (LLType.array rest_ll_unit rest_count)
  else do
    let pfx_tys ← optionMapList
      (fun kind => Reg.llvmType { kind := kind, size := ct.pfx_chunk_size })
      (ct.pfx.filterMap id)
    let main := pfx_tys ++ List.replicate rest_count rest_ll_unit
    if rem_bytes = 0 then
      some (LLType.struct_ main false)
    else if ct.rest.unit.kind = RegKind.integer then
      some (LLType.struct_ (main ++ [LLType.int (rem_bytes * 8)]) false)
    else
      none

/-- The five regular argument attribute kinds
(rustc_target::abi::call::ArgAttribute). -/
inductive AttrFlag where
  | noAlias
  | noCapture
  | nonNull
  | readOnly
  | inReg
deriving Repr, DecidableEq

/-- The set of regular attribute flags carried by an ArgAttributes value. -/
structure AttrFlags where
  noAlias : Bool
  noCapture : Bool
  nonNull : Bool
  readOnly : Bool
  inReg : Bool
deriving Repr, DecidableEq

/-- The empty flag set. -/
def AttrFlags.empty : AttrFlags :=
  { noAlias := false, noCapture := false, nonNull := false,
    readOnly := false, inReg := false }

/-- Removal of NonNull from a flag set (the source's regular -= NonNull). -/
def AttrFlags.removeNonNull (f : AttrFlags) : AttrFlags :=
  { f with nonNull := false }

/-- Enumeration of the set flags in the fixed order of the source's
for_each_kind macro: NoAlias, NoCapture, NonNull, ReadOnly, InReg. -/
def AttrFlags.forEachKind (f : AttrFlags) : List AttrFlag :=
  (if f.noAlias then [AttrFlag.noAlias] else []) ++
  (if f.noCapture then [AttrFlag.noCapture] else []) ++
  (if f.nonNull then [AttrFlag.nonNull] else []) ++
  (if f.readOnly then [AttrFlag.readOnly] else []) ++
  (if f.inReg then [AttrFlag.inReg] else [])

/-- Extension mode of an argument (rustc_target::abi::call::ArgExtension). -/
inductive ArgExtension where
  | noneExt
  | zext
  | sext
deriving Repr, DecidableEq

/-- Abstract per-argument attribute set
(rustc_target::abi::call::ArgAttributes): regular flags, extension mode,
pointee dereferenceable size in bytes, optional pointee alignment. -/
structure ArgAttributes where
  regular : AttrFlags
  arg_ext : ArgExtension
  pointee_size : Nat
  pointee_align : Option Nat
deriving Repr, DecidableEq

/-- ArgAttributes::new(): everything empty. -/
def ArgAttributes.new : ArgAttributes :=
  { regular := AttrFlags.empty, arg_ext := ArgExtension.noneExt,
    pointee_size := 0, pointee_align := none }

/-- Attribute placement (llvm::AttributePlace). -/
inductive AttrPlace where
  | function
  | returnValue
  | argument (i : Nat)
deriving Repr, DecidableEq

/-- Observable effects of attribute application; each constructor names
one LLVM-side mutation performed by the source. -/
inductive AttrEffect where
  | deref (place : AttrPlace) (n : Nat)
  | derefOrNull (place : AttrPlace) (n : Nat)
  | alignAttr (place : AttrPlace) (a : Nat)
  | flag (place : AttrPlace) (f : AttrFlag)
  | ext (place : AttrPlace) (e : ArgExtension)
  | structRet (place : AttrPlace)
  | noReturn
  | noUnwind
  | retRange (lo hi : Nat)
deriving Repr, DecidableEq

/-- Definition-site attribute application
(ArgAttributes::apply_attrs_to_llfn, abi.rs lines 106-133), transcribed
as the ordered list of effects it performs on the function. -/
def ArgAttributes.apply_attrs_to_llfn (a : ArgAttributes) (idx : AttrPlace) :
    List AttrEffect :=
  let deref := a.pointee_size
  let derefEffs :=
    if deref ≠ 0 then
      if a.regular.nonNull then [AttrEffect.deref idx deref]
      else [AttrEffect.derefOrNull idx deref]
    else []
  let regular := if deref ≠ 0 then a.regular.removeNonNull else a.regular
  let alignEffs :=
    match a.pointee_align with
    | some al => [AttrEffect.alignAttr idx al]
    | none => []
  let extEffs :=
    match a.arg_ext with
    | ArgExtension.noneExt => []
    | ArgExtension.zext => [AttrEffect.ext idx ArgExtension.zext]
    | ArgExtension.sext => [AttrEffect.ext idx ArgExtension.sext]
  derefEffs ++ alignEffs ++ regular.forEachKind.map (AttrEffect.flag idx)
    ++ extEffs

/-- Call-site attribute application
(ArgAttributes::apply_attrs_to_callsite, abi.rs lines 135-174),
transcribed as the ordered list of effects it performs on the call. -/
def ArgAttributes.apply_attrs_to_callsite (a : ArgAttributes) (idx : AttrPlace) :
    List AttrEffect :=
  let deref := a.pointee_size
  let derefEffs :=
    if deref ≠ 0 then
      if a.regular.nonNull then [AttrEffect.deref idx deref]
      else [AttrEffect.derefOrNull idx deref]
    else []
  let regular := if deref ≠ 0 then a.regular.removeNonNull else a.regular
  let alignEffs :=
    match a.pointee_align with
    | some al => [AttrEffect.alignAttr idx al]
    | none => []
  let extEffs :=
    match a.arg_ext with
    | ArgExtension.noneExt => []
    | ArgExtension.zext => [AttrEffect.ext idx ArgExtension.zext]
    | ArgExtension.sext => [AttrEffect.ext idx ArgExtension.sext]
  derefEffs ++ alignEffs ++ regular.forEachKind.map (AttrEffect.flag idx)
    ++ extEffs

/-- Specification-side restatement of the attribute effect rules of spec
section 4.3, written from the spec's words for the refinement claim C7:
if the pointee dereferenceable size is nonzero, attach dereferenceable
when NonNull is set and dereferenceable-or-null otherwise, then drop
NonNull from the flags applied generically; attach pointee alignment if
present; apply the remaining boolean flags; apply the extension mode
last, only if not None. -/
def attr_rules_spec (a : ArgAttributes) (idx : AttrPlace) : List AttrEffect :=
  let derefPart : List AttrEffect :=
    if a.pointee_size ≠ 0 then
      if a.regular.nonNull then [AttrEffect.deref idx a.pointee_size]
      else [AttrEffect.derefOrNull idx a.pointee_size]
    else []
  let remaining :=
    if a.pointee_size ≠ 0 then a.regular.removeNonNull else a.regular
  let alignPart : List AttrEffect :=
    match a.pointee_align with
    | some al => [AttrEffect.alignAttr idx al]
    | none => []
  let flagPart := remaining.forEachKind.map (AttrEffect.flag idx)
  let extPart : List AttrEffect :=
    if a.arg_ext = ArgExtension.noneExt then [] else [AttrEffect.ext idx a.arg_ext]
  derefPart ++ alignPart ++ flagPart ++ extPart

/-- Integer widths of scalar primitives (rustc_target::abi::Integer). -/
inductive IntWidth where
  | i8
  | i16
  | i32
  | i64
  | i128
deriving Repr, DecidableEq

/-- Byte size of an integer width. -/
def IntWidth.sizeBytes : IntWidth → Nat
  | .i8 => 1
  | .i16 => 2
  | .i32 => 4
  | .i64 => 8
  | .i128 => 16

/-- Scalar primitive values (rustc_target::abi::Primitive); pointers are
8 bytes on the 64-bit target. -/
inductive Primitive where
  | int (w : IntWidth) (signed : Bool)
  | f32
  | f64
  | pointer
deriving Repr, DecidableEq

/-- Byte size of a primitive. -/
def Primitive.sizeBytes : Primitive → Nat
  | .int w _ => w.sizeBytes
  | .f32 => 4
  | .f64 => 8
  | .pointer => 8

/-- Inclusive wrapping range of valid values
(rustc_target::abi::WrappingRange); the source field end is rendered
stop because end is reserved in Lean. -/
structure WrappingRange where
  start : Nat
  stop : Nat
deriving Repr, DecidableEq

/-- WrappingRange::is_full_for: the range covers every representable
value of the given byte size; start equals end plus one wrapped at the
type's width. -/
def WrappingRange.is_full_for (r : WrappingRange) (sizeBytes : Nat) : Bool :=
  decide (r.start = (r.stop + 1) % 2 ^ (sizeBytes * 8))

/-- A scalar layout (rustc_target::abi::Scalar). -/
structure ScalarM where
  value : Primitive
  valid_range : WrappingRange
deriving Repr, DecidableEq

/-- Scalar::is_bool: an unsigned 8-bit integer whose valid range is 0..=1. -/
def ScalarM.is_bool (s : ScalarM) : Bool :=
  decide (s.value = Primitive.int IntWidth.i8 false) &&
  decide (s.valid_range = { start := 0, stop := 1 })

/-- Scalar::is_always_valid: the declared valid range covers the full
representable range for the primitive's size. -/
def ScalarM.is_always_valid (s : ScalarM) : Bool :=
  s.valid_range.is_full_for s.value.sizeBytes

/-- Abstract layout ABI classification (rustc_target::abi::Abi). -/
inductive AbiM where
  | uninhabited
  | scalar (s : ScalarM)
  | scalarPair (a b : ScalarM)
  | vector
  | aggregate (sized : Bool)
deriving Repr, DecidableEq

/-- Abi::is_uninhabited. -/
def AbiM.is_uninhabited : AbiM → Bool
  | .uninhabited => true
  | _ => false

/-- The Aggregate pattern test used by readjust_fn_abi's matches!. -/
def AbiM.is_aggregate : AbiM → Bool
  | .aggregate _ => true
  | _ => false

/-- The fragment of rustc's TyKind that readjust_fn_abi inspects:
references, slices, arrays, raw pointers, and everything else. -/
inductive TyK where
  | ref (pointee : TyK)
  | slice (elem : TyK)
  | array (elem : TyK) (len : Nat)
  | rawPtr (pointee : TyK)
  | other (tag : Nat)
deriving Repr, DecidableEq

/-- Ty::is_array. -/
def TyK.is_array : TyK → Bool
  | .array _ _ => true
  | _ => false

/-- The reference-to-slice test of readjust_fn_abi: TyKind::Ref whose
pointee is TyKind::Slice. -/
def TyK.is_ref_to_slice : TyK → Bool
  | .ref (.slice _) => true
  | _ => false

/-- Per-type layout data consumed by this core; the layout engine that
produces it is an external collaborator, so the fields the code reads
are modelled directly: the type, its ABI classification, the zero-sized
test, and the lowered types the code queries from it
(immediate_llvm_type, scalar_pair_element_llvm_type 0 and 1, and the
memory type llvm_type). -/
structure LayoutM where
  ty : TyK
  abi : AbiM
  zst : Bool
  immediate : LLType
  pairElemA : LLType
  pairElemB : LLType
  memTy : LLType

/-- Argument passing-mode classification
(rustc_target::abi::call::PassMode). -/
inductive PassModeM where
  | ignore
  | direct (attrs : ArgAttributes)
  | pair (a b : ArgAttributes)
  | cast (target : CastTarget)
  | indirect (attrs : ArgAttributes) (extra_attrs : Option ArgAttributes)
      (on_stack : Bool)
deriving Repr, DecidableEq

/-- The Direct pattern test used by readjust_fn_abi's matches!. -/
def PassModeM.is_direct : PassModeM → Bool
  | .direct _ => true
  | _ => false

/-- The Indirect pattern test used by readjust_fn_abi's matches!. -/
def PassModeM.is_indirect : PassModeM → Bool
  | .indirect _ _ _ => true
  | _ => false

/-- One argument or return slot of a function ABI descriptor
(rustc_target::abi::call::ArgAbi): layout, passing mode, and optional
leading padding register. -/
structure ArgAbiM where
  layout : LayoutM
  mode : PassModeM
  pad : Option Reg

/-- Calling-convention tag (rustc_target::spec::abi Conv), reduced to
the distinction the code makes: Rust versus everything else. -/
inductive ConvM where
  | rust
  | c
  | ptxKernel
  | otherConv (tag : Nat)
deriving Repr, DecidableEq

/-- A full function ABI descriptor (rustc_target::abi::call::FnAbi). -/
structure FnAbiM where
  args : List ArgAbiM
  ret : ArgAbiM
  c_variadic : Bool
  fixed_count : Nat
  conv : ConvM
  can_unwind : Bool

/-- First adjustment step of readjust_fn_abi's per-argument closure:
zero-sized arguments are reclassified to Ignore. -/
def readjust_zst (arg : ArgAbiM) : ArgAbiM :=
  if arg.layout.zst then { arg with mode := PassModeM.ignore } else arg

/-- Second adjustment step: a reference to a slice becomes a Pair whose
pointer part inherits the regular flags of a previous Indirect mode. -/
def readjust_slice_ref (arg : ArgAbiM) : ArgAbiM :=
  match arg.layout.ty with
  | TyK.ref (TyK.slice _) =>
    let ptr_attrs :=
      match arg.mode with
      | PassModeM.indirect attrs _ _ =>
        { ArgAttributes.new with regular := attrs.regular }
      | _ => ArgAttributes.new
    { arg with mode := PassModeM.pair ptr_attrs ArgAttributes.new }
  | _ => arg

/-- Third adjustment step: an array-typed argument that is not already
Direct becomes Direct with fresh attributes. -/
def readjust_array (arg : ArgAbiM) : ArgAbiM :=
  if arg.layout.ty.is_array && !arg.mode.is_direct then
    { arg with mode := PassModeM.direct ArgAttributes.new }
  else arg

/-- Fourth adjustment step: an aggregate-layout argument classified
Indirect becomes Direct with fresh attributes. -/
def readjust_aggregate (arg : ArgAbiM) : ArgAbiM :=
  if arg.layout.abi.is_aggregate && arg.mode.is_indirect then
    { arg with mode := PassModeM.direct ArgAttributes.new }
  else arg

/-- The per-argument closure readjust_arg_abi of readjust_fn_abi
(abi.rs lines 29-63): the four sequential adjustments applied in source
order to a copy of the argument. -/
def readjust_arg_abi (arg : ArgAbiM) : ArgAbiM :=
  readjust_aggregate (readjust_array (readjust_slice_ref (readjust_zst arg)))

/-- readjust_fn_abi (abi.rs lines 21-72): the Rust convention is left
untouched; any other convention has every argument and the return
rewritten by readjust_arg_abi. -/
def readjust_fn_abi (fn_abi : FnAbiM) : FnAbiM :=
  if fn_abi.conv = ConvM.rust then fn_abi
  else
    { args := fn_abi.args.map readjust_arg_abi,
      ret := readjust_arg_abi fn_abi.ret,
      c_variadic := fn_abi.c_variadic,
      fixed_count := fn_abi.fixed_count,
      conv := fn_abi.conv,
      can_unwind := fn_abi.can_unwind }

/-- One iteration of the argument loop of FnAbi::apply_attrs_llfn
(abi.rs lines 411-453), threading the running parameter index: a
padding slot first receives fresh attributes; then the mode determines
which slots receive which attribute sets.  An Indirect argument with
extra attributes asserts that it is not on the stack; the failing
assertion is modelled as none. -/
def fn_apply_attrs_llfn_arg (st : Nat × List AttrEffect) (arg : ArgAbiM) :
    Option (Nat × List AttrEffect) :=
  let st1 :=
    if arg.pad.isSome then
      (st.1 + 1,
       st.2 ++ ArgAttributes.new.apply_attrs_to_llfn (AttrPlace.argument st.1))
    else st
  match arg.mode with
  | PassModeM.ignore => some st1
  | PassModeM.indirect attrs none true =>
    some (st1.1 + 1,
      st1.2 ++ attrs.apply_attrs_to_llfn (AttrPlace.argument st1.1))
  | PassModeM.direct attrs =>
    some (st1.1 + 1,
      st1.2 ++ attrs.apply_attrs_to_llfn (AttrPlace.argument st1.1))
  | PassModeM.indirect attrs none false =>
    some (st1.1 + 1,
      st1.2 ++ attrs.apply_attrs_to_llfn (AttrPlace.argument st1.1))
  | PassModeM.indirect attrs (some extra) on_stack =>
    if on_stack then none
    else some (st1.1 + 2,
      st1.2 ++ attrs.apply_attrs_to_llfn (AttrPlace.argument st1.1)
        ++ extra.apply_attrs_to_llfn (AttrPlace.argument (st1.1 + 1)))
  | PassModeM.pair a b =>
    some (st1.1 + 2,
      st1.2 ++ a.apply_attrs_to_llfn (AttrPlace.argument st1.1)
        ++ b.apply_attrs_to_llfn (AttrPlace.argument (st1.1 + 1)))
  | PassModeM.cast _ =>
    some (st1.1 + 1,
      st1.2 ++ ArgAttributes.new.apply_attrs_to_llfn (AttrPlace.argument st1.1))

/-- FnAbi::apply_attrs_llfn (abi.rs lines 379-454): no-return when the
return layout is uninhabited, no-unwind when the descriptor cannot
unwind, return attributes (an Indirect return asserts not on_stack and
marks the hidden first parameter as the structure-return slot), then
the per-argument loop. -/
def fnApplyAttrsLlfn (f : FnAbiM) : Option (List AttrEffect) := do
  let funEffs :=
    (if f.ret.layout.abi.is_uninhabited then [AttrEffect.noReturn] else []) ++
    (if !f.can_unwind then [AttrEffect.noUnwind] else [])
  let retState ←
    match f.ret.mode with
    | PassModeM.direct attrs =>
      some ((0 : Nat),
        funEffs ++ attrs.apply_attrs_to_llfn AttrPlace.returnValue)
    | PassModeM.indirect attrs _ on_stack =>
      if on_stack then none
      else some (1,
        funEffs ++ attrs.apply_attrs_to_llfn (AttrPlace.argument 0)
          ++ [AttrEffect.structRet (AttrPlace.argument 0)])
    | _ => some (0, funEffs)
  let final ← f.args.foldlM fn_apply_attrs_llfn_arg retState
  some final.2

/-- One iteration of the argument loop of FnAbi::apply_attrs_callsite
(abi.rs lines 495-532); unlike the definition site, the
Indirect-with-extra-attributes arm carries no on-stack assertion. -/
def fn_apply_attrs_callsite_arg (st : Nat × List AttrEffect) (arg : ArgAbiM) :
    Nat × List AttrEffect :=
  let st1 :=
    if arg.pad.isSome then
      (st.1 + 1,
       st.2 ++ ArgAttributes.new.apply_attrs_to_callsite (AttrPlace.argument st.1))
    else st
  match arg.mode with
  | PassModeM.ignore => st1
  | PassModeM.indirect attrs none true =>
    (st1.1 + 1,
      st1.2 ++ attrs.apply_attrs_to_callsite (AttrPlace.argument st1.1))
  | PassModeM.direct attrs =>
    (st1.1 + 1,
      st1.2 ++ attrs.apply_attrs_to_callsite (AttrPlace.argument st1.1))
  | PassModeM.indirect attrs none false =>
    (st1.1 + 1,
      st1.2 ++ attrs.apply_attrs_to_callsite (AttrPlace.argument st1.1))
  | PassModeM.indirect attrs (some extra) _ =>
    (st1.1 + 2,
      st1.2 ++ attrs.apply_attrs_to_callsite (AttrPlace.argument st1.1)
        ++ extra.apply_attrs_to_callsite (AttrPlace.argument (st1.1 + 1)))
  | PassModeM.pair a b =>
    (st1.1 + 2,
      st1.2 ++ a.apply_attrs_to_callsite (AttrPlace.argument st1.1)
        ++ b.apply_attrs_to_callsite (AttrPlace.argument (st1.1 + 1)))
  | PassModeM.cast _ =>
    (st1.1 + 1,
      st1.2 ++ ArgAttributes.new.apply_attrs_to_callsite (AttrPlace.argument st1.1))

/-- FnAbi::apply_attrs_callsite (abi.rs lines 456-533): return
attributes (an Indirect return asserts not on_stack), then value-range
metadata on the returned value when the return layout is a scalar of
integer kind that is neither a boolean nor covering its full
representable range, then the per-argument loop. -/
def fnApplyAttrsCallsite (f : FnAbiM) : Option (List AttrEffect) := do
  let retState ←
    match f.ret.mode with
    | PassModeM.direct attrs =>
      some ((0 : Nat), attrs.apply_attrs_to_callsite AttrPlace.returnValue)
    | PassModeM.indirect attrs _ on_stack =>
      if on_stack then none
      else some (1, attrs.apply_attrs_to_callsite (AttrPlace.argument 0))
    | _ => some (0, [])
  let rangeEffs :=
    match f.ret.layout.abi with
    | AbiM.scalar s =>
      match s.value with
      | Primitive.int _ _ =>
        if !s.is_bool && !s.is_always_valid then
          [AttrEffect.retRange s.valid_range.start s.valid_range.stop]
        else []
      | _ => []
    | _ => []
  let final :=
    f.args.foldl fn_apply_attrs_callsite_arg (retState.1, retState.2 ++ rangeEffs)
  some final.2

/-- The external collaborators queried by FnAbi::llvm_type: the
type-remapping classify function (crate::int_replace::get_transformed_type,
returning a possibly different type and whether it changed) and the
layout engine's answer for the scalar-pair element types of a mutable
pointer to a given type (cx.layout_of(cx.tcx.mk_mut_ptr(ty)) queried at
pair positions 0 and 1). -/
structure CxM where
  classify : LLType → LLType × Bool
  mutPtrPairA : TyK → LLType
  mutPtrPairB : TyK → LLType

/-- Return-type lowering of FnAbi::llvm_type (abi.rs lines 294-303),
before type remapping: Ignore is void, Direct and Pair use the layout's
immediate type, Cast lowers the cast target, Indirect is void (the
value travels through a hidden pointer parameter). -/
def retPreType (f : FnAbiM) : Option LLType :=
  match f.ret.mode with
  | PassModeM.ignore => some LLType.void
  | PassModeM.direct _ => some f.ret.layout.immediate
  | PassModeM.pair _ _ => some f.ret.layout.immediate
  | PassModeM.cast c => c.llvmType
  | PassModeM.indirect _ _ _ => some LLType.void

/-- The hidden leading parameter an Indirect return pushes in
FnAbi::llvm_type: a pointer to the return's memory type. -/
def sretParams (f : FnAbiM) : List LLType :=
  match f.ret.mode with
  | PassModeM.indirect _ _ _ => [LLType.ptr f.ret.layout.memTy 0]
  | _ => []

/-- One iteration of the argument loop of FnAbi::llvm_type (abi.rs
lines 314-355), at running slot index idx.  Returns the emitted slot
types, the remapping entries recorded (slot index paired with the
original type, for single-slot modes whose classification reported a
change), and the types that were passed to classify.  The padding slot
is emitted first, unclassified; Pair and unsized-Indirect emit their
two slots unclassified; Direct, Cast and sized-Indirect pass their one
slot type through classify and emit the returned type. -/
def lowerOneArg (cx : CxM) (arg : ArgAbiM) (idx : Nat) :
    Option (List LLType × List (Nat × LLType) × List LLType) := do
  let padTys ←
    match arg.pad with
    | some r => do
      let t ← r.llvmType
      some [t]
    | none => some []
  let idx1 := idx + padTys.length
  match arg.mode with
  | PassModeM.ignore => some (padTys, [], [])
  | PassModeM.pair _ _ =>
    some (padTys ++ [arg.layout.pairElemA, arg.layout.pairElemB], [], [])
  | PassModeM.indirect _ (some _) _ =>
    some (padTys ++ [cx.mutPtrPairA arg.layout.ty, cx.mutPtrPairB arg.layout.ty],
      [], [])
  | PassModeM.direct _ =>
    let t := arg.layout.immediate
    let c := cx.classify t
    some (padTys ++ [c.1], if c.2 then [(idx1, t)] else [], [t])
  | PassModeM.cast ca => do
    let t ← ca.llvmType
    let c := cx.classify t
    some (padTys ++ [c.1], if c.2 then [(idx1, t)] else [], [t])
  | PassModeM.indirect _ none _ =>
    let t := LLType.ptr arg.layout.memTy 0
    let c := cx.classify t
    some (padTys ++ [c.1], if c.2 then [(idx1, t)] else [], [t])

/-- The argument loop of FnAbi::llvm_type over a list of arguments
starting at slot index idx; the imperative pushes become list
concatenation and the per-iteration index increment is the number of
slots the argument emitted. -/
def lowerArgs (cx : CxM) : List ArgAbiM → Nat →
    Option (List LLType × List (Nat × LLType) × List LLType)
  | [], _ => some ([], [], [])
  | arg :: rest, idx => do
    let (tysA, transA, consA) ← lowerOneArg cx arg idx
    let (tysB, transB, consB) ← lowerArgs cx rest (idx + tysA.length)
    some (tysA ++ tysB, transA ++ transB, consA ++ consB)

/-- The result of FnAbi::llvm_type: the concrete parameter types, the
final return type, the assembled function type, the
RemappedTypeRecord to insert keyed by the function type (None when no
classification reported a change), and the trace of types passed to the
classify collaborator, in call order. -/
structure FnLowering where
  params : List LLType
  retTy : LLType
  fnty : LLType
  record : Option (Option LLType × List (Nat × LLType))
  consulted : List LLType

/-- FnAbi::llvm_type (abi.rs lines 276-368): lower the return type and
classify it, push the hidden Indirect-return pointer if any, run the
argument loop, assemble the (possibly variadic) function type, and
insert a remapping record exactly when some classification reported a
change, pairing the original return type (when it changed) with the
changed slots' indices and original types. -/
def fnLlvmType (cx : CxM) (f : FnAbiM) : Option FnLowering := do
  let ret0 ← retPreType f
  let sretTys := sretParams f
  let cRet := cx.classify ret0
  let old_ret_ty := if cRet.2 then some ret0 else none
  let (argTys, transE, consArgs) ← lowerArgs cx f.args sretTys.length
  let params := sretTys ++ argTys
  let fnty := LLType.func params cRet.1 f.c_variadic
  let record :=
    if !transE.isEmpty || old_ret_ty.isSome then some (old_ret_ty, transE)
    else none
  some { params := params, retTy := cRet.1, fnty := fnty, record := record,
         consulted := ret0 :: consArgs }

/-- Builder::get_param (abi.rs lines 541-555): fetch the parameter
value at the given index (a value is modelled by its type), then
consult the remapped-integer-args table keyed by the current function's
type; if the table lists this index, the value is reinterpreted
(transmute_llval) back to the recorded original type. -/
def builderGetParam
    (map : List (LLType × (Option LLType × List (Nat × LLType))))
    (llfnty : LLType) (params : List LLType) (index : Nat) : Option LLType := do
  let val ← params.get? index
  match map.find? (fun e => LLType.beq e.1 llfnty) with
  | some entry =>
    match entry.2.2.find? (fun t => t.1 == index) with
    | some found => some found.2
    | none => some val
  | none => some val

/-- One field of the constant struct produced by const_alloc_to_llvm: a
literal byte-array constant, a typed undefined placeholder of known
length, or a relocation rendered as a pointer value (allocation id,
in-pointer offset, address space). -/
inductive ConstChunk where
  | bytes (bs : List Nat)
  | undef (len : Nat)
  | relocPtr (allocId : Nat) (offset : Nat) (addrspace : Nat)
deriving Repr, DecidableEq

/-- Byte length of one emitted field, a pointer field counted at the
target pointer width. -/
def ConstChunk.sizeBytes (ptrSize : Nat) : ConstChunk → Nat
  | .bytes bs => bs.length
  | .undef n => n
  | .relocPtr _ _ _ => ptrSize

/-- The constant struct assembled by const_alloc_to_llvm
(cx.const_struct(&llvals, true)). -/
structure ConstStruct where
  fields : List ConstChunk
  packed : Bool
deriving Repr, DecidableEq

/-- A compile-time memory image (rustc_middle interpret::Allocation as
the encoder reads it): the raw byte buffer (the buffer also holds bytes
at uninitialized positions, which inspect_with_uninit_and_ptr returns
as arbitrary filler), the per-byte initialization mask, and the
relocation list ordered by ascending offset. -/
structure AllocM where
  bytes : List Nat
  initMask : List Bool
  relocations : List (Nat × Nat)
deriving Repr, DecidableEq

/-- Allocation::len. -/
def AllocM.len (a : AllocM) : Nat := a.bytes.length

/-- The sub-list of l of the given length starting at the given offset
(inspect_with_uninit_and_ptr_outside_interpreter over a byte range). -/
def byteSlice (l : List α) (start len : Nat) : List α :=
  (l.drop start).take len

/-- Grouping of a boolean mask into maximal runs of equal values, each
with its length (InitMask::range_as_init_chunks restricted to a range:
the mask restricted to the range is decomposed into maximal
initialized and uninitialized sub-runs, in order). -/
def runLengths : List Bool → List (Bool × Nat)
  | [] => []
  | b :: rest =>
    match runLengths rest with
    | [] => [(b, 1)]
    | (c, n) :: t => if b = c then (b, n + 1) :: t else (b, 1) :: (c, n) :: t

/-- Rendering of init-mask runs into constant fields starting at a byte
offset (the chunk_to_llval closure of
append_chunks_of_init_and_uninit_bytes): an initialized run becomes a
literal byte-array constant of the buffer's bytes at its range, an
uninitialized run becomes an undefined placeholder of its length. -/
def chunkVals (bytes : List Nat) : Nat → List (Bool × Nat) → List ConstChunk
  | _, [] => []
  | off, (b, n) :: rest =>
    (if b then ConstChunk.bytes (byteSlice bytes off n) else ConstChunk.undef n)
      :: chunkVals bytes (off + n) rest

/-- append_chunks_of_init_and_uninit_bytes (consts.rs lines 83-134):
split the byte span into maximal initialized and uninitialized runs;
when a threshold is supplied and the span length is at or under it,
render every run individually; otherwise a span consisting of exactly
one run is rendered as-is and any other span collapses to one literal
byte-array constant of the raw buffer bytes.  The threshold is the
externally supplied partially-uninit constant policy, defaulting to
disabled (none). -/
def append_chunks_of_init_and_uninit_bytes (threshold : Option Nat)
    (alloc : AllocM) (start stop : Nat) : List ConstChunk :=
  let rl := runLengths (byteSlice alloc.initMask start (stop - start))
  let allow :=
    match threshold with
    | some m => decide (stop - start ≤ m)
    | none => false
  if allow then chunkVals alloc.bytes start rl
  else
    match rl with
    | [c] => chunkVals alloc.bytes start [c]
    | _ => [ConstChunk.bytes (byteSlice alloc.bytes start (stop - start))]

/-- Little-endian read of a byte list as an unsigned integer
(read_target_uint with the target's little-endian data layout). -/
def readLE : List Nat → Nat
  | [] => 0
  | b :: rest => b + 256 * readLE rest

/-- The relocation walk of const_alloc_to_llvm (consts.rs lines
136-181): before each relocation, the preceding strictly nonempty byte
span is encoded by the splitter; the relocation itself is rendered as a
pointer value whose in-pointer offset is read from the buffer at the
relocation and whose address space is the instruction address space for
function allocations and the default data space otherwise; after the
last relocation the trailing span (possibly empty) is encoded the same
way. -/
def encodeRelocChain (ptrSize instrAS : Nat) (isFn : Nat → Bool)
    (threshold : Option Nat) (alloc : AllocM) :
    List (Nat × Nat) → Nat → List ConstChunk
  | [], next =>
    if alloc.len ≥ next then
      append_chunks_of_init_and_uninit_bytes threshold alloc next alloc.len
    else []
  | (offset, allocId) :: rest, next =>
    (if offset > next then
      append_chunks_of_init_and_uninit_bytes threshold alloc next offset
     else []) ++
    ConstChunk.relocPtr allocId (readLE (byteSlice alloc.bytes offset ptrSize))
      (if isFn allocId then instrAS else 0) ::
    encodeRelocChain ptrSize instrAS isFn threshold alloc rest (offset + ptrSize)

/-- const_alloc_to_llvm (consts.rs lines 75-184): the relocation walk
assembled into one packed struct whose field order matches byte order. -/
def const_alloc_to_llvm (ptrSize instrAS : Nat) (isFn : Nat → Bool)
    (threshold : Option Nat) (alloc : AllocM) : ConstStruct :=
  { fields := encodeRelocChain ptrSize instrAS isFn threshold alloc
      alloc.relocations 0,
    packed := true }

/-- Well-formedness of a relocation list against an image length,
starting from a next-free offset: offsets are ascending, each
relocation occupies ptrSize bytes, relocations do not overlap and stay
in bounds. -/
def relocsOk (ptrSize len : Nat) : List (Nat × Nat) → Nat → Bool
  | [], _ => true
  | (off, _) :: rest, next =>
    decide (next ≤ off) && decide (off + ptrSize ≤ len) &&
      relocsOk ptrSize len rest (off + ptrSize)

/-- Pairing of each field with its start offset, given the offset of
the first field. -/
def withOffsets (ptrSize : Nat) : Nat → List ConstChunk → List (Nat × ConstChunk)
  | _, [] => []
  | off, c :: rest => (off, c) :: withOffsets ptrSize (off + c.sizeBytes ptrSize) rest

/-- The relocation fields of an offset-annotated field list, each as
its start offset paired with the target allocation id. -/
def relocFields (l : List (Nat × ConstChunk)) : List (Nat × Nat) :=
  l.filterMap (fun p =>
    match p.2 with
    | ConstChunk.relocPtr id _ _ => some (p.1, id)
    | _ => none)

/-- A fully concrete layout used by witness inputs. -/
def layout0 : LayoutM :=
  { ty := TyK.other 0, abi := AbiM.aggregate true, zst := false,
    immediate := LLType.int 32, pairElemA := LLType.int 64,
    pairElemB := LLType.int 64, memTy := LLType.int 32 }

/-- The C3 counterexample input: no prefix, an 8-byte Integer rest unit,
and a declared total of only 4 bytes. -/
def c3ct : CastTarget :=
  { pfx := [none, none, none, none, none, none, none, none],
    pfx_chunk_size := 8,
    rest := { unit := { kind := RegKind.integer, size := 8 }, total := 4 } }

/-- Witness input for the amended C3: one Integer prefix chunk of 8
bytes and a 4-byte Integer rest unit with total 6. -/
def c3wct : CastTarget :=
  { pfx := [some RegKind.integer, none, none, none, none, none, none, none],
    pfx_chunk_size := 8,
    rest := { unit := { kind := RegKind.integer, size := 4 }, total := 6 } }

/-- A concrete descriptor whose return is an on-stack Indirect. -/
def c5fn : FnAbiM :=
  { args := [],
    ret := { layout := layout0,
             mode := PassModeM.indirect ArgAttributes.new none true,
             pad := none },
    c_variadic := false, fixed_count := 0, conv := ConvM.c,
    can_unwind := false }

/-- The C10 counterexample argument: a zero-sized array-typed aggregate
argument. -/
def c10arg : ArgAbiM :=
  { layout := { ty := TyK.array (TyK.other 0) 0, abi := AbiM.aggregate true,
                zst := true, immediate := LLType.int 32,
                pairElemA := LLType.int 64, pairElemB := LLType.int 64,
                memTy := LLType.int 32 },
    mode := PassModeM.ignore, pad := none }

/-- The C10 counterexample descriptor: non-Rust convention, one
zero-sized array argument. -/
def c10fn : FnAbiM :=
  { args := [c10arg],
    ret := { layout := layout0, mode := PassModeM.ignore, pad := none },
    c_variadic := false, fixed_count := 1, conv := ConvM.c,
    can_unwind := false }

/-- A scalar i32 return whose valid range 1..=100 is narrow. -/
def c6scalar : ScalarM :=
  { value := Primitive.int IntWidth.i32 false,
    valid_range := { start := 1, stop := 100 } }

/-- Witness descriptor for C6: a Direct scalar-i32 return with a narrow
declared range. -/
def c6fn : FnAbiM :=
  { args := [],
    ret := { layout := { layout0 with abi := AbiM.scalar c6scalar },
             mode := PassModeM.direct ArgAttributes.new, pad := none },
    c_variadic := false, fixed_count := 0, conv := ConvM.c,
    can_unwind := false }

/-- The call-site effects computed for the C6 witness descriptor. -/
def c6effs : List AttrEffect := [AttrEffect.retRange 1 100]

/-- The original 128-bit integer type that the witness classifier
remaps. -/
def c1A : LLType := LLType.int 128

/-- A concrete classify collaborator that remaps i128 to a vector of
two i64 and reports everything else unchanged. -/
def c1cx : CxM :=
  { classify := fun t =>
      match t with
      | LLType.int 128 => (LLType.vector (LLType.int 64) 2, true)
      | t2 => (t2, false),
    mutPtrPairA := fun _ => LLType.int 64,
    mutPtrPairB := fun _ => LLType.int 64 }

/-- The C1 counterexample descriptor: one Pair argument whose two
scalar-pair element types are i128, which the collaborator would remap. -/
def c1fn : FnAbiM :=
  { args := [ { layout := { layout0 with pairElemA := c1A, pairElemB := c1A },
                mode := PassModeM.pair ArgAttributes.new ArgAttributes.new,
                pad := none } ],
    ret := { layout := layout0, mode := PassModeM.ignore, pad := none },
    c_variadic := false, fixed_count := 1, conv := ConvM.c,
    can_unwind := false }

/-- The lowering computed for the C1 counterexample descriptor. -/
def c1res : FnLowering :=
  { params := [c1A, c1A], retTy := LLType.void,
    fnty := LLType.func [c1A, c1A] LLType.void false,
    record := none, consulted := [LLType.void] }

/-- Witness descriptor for the amended C1: one Direct argument whose
immediate type is i128, which the collaborator remaps. -/
def c1wfn : FnAbiM :=
  { args := [ { layout := { layout0 with immediate := c1A },
                mode := PassModeM.direct ArgAttributes.new, pad := none } ],
    ret := { layout := layout0, mode := PassModeM.ignore, pad := none },
    c_variadic := false, fixed_count := 1, conv := ConvM.c,
    can_unwind := false }

/-- The lowering computed for the amended-C1 witness descriptor. -/
def c1wres : FnLowering :=
  { params := [LLType.vector (LLType.int 64) 2],
    retTy := LLType.void,
    fnty := LLType.func [LLType.vector (LLType.int 64) 2] LLType.void false,
    record := some (none, [(0, c1A)]),
    consulted := [LLType.void, c1A] }

/-- A change-free classify collaborator for the C4 witness. -/
def c4cx : CxM :=
  { classify := fun t => (t, false),
    mutPtrPairA := fun _ => LLType.int 64,
    mutPtrPairB := fun _ => LLType.int 64 }

/-- Witness descriptor for C4: one Direct argument and one Ignore
argument, no padding, non-Indirect return. -/
def c4fn : FnAbiM :=
  { args := [ { layout := layout0, mode := PassModeM.direct ArgAttributes.new,
                pad := none },
              { layout := layout0, mode := PassModeM.ignore, pad := none } ],
    ret := { layout := layout0, mode := PassModeM.ignore, pad := none },
    c_variadic := false, fixed_count := 2, conv := ConvM.c,
    can_unwind := false }

/-- The lowering computed for the C4 witness descriptor. -/
def c4res : FnLowering :=
  { params := [LLType.int 32], retTy := LLType.void,
    fnty := LLType.func [LLType.int 32] LLType.void false,
    record := none, consulted := [LLType.void, LLType.int 32] }

/-- Witness image for C2: twelve fully defined bytes with one pointer
relocation at offset 0. -/
def c2alloc : AllocM :=
  { bytes := [1, 2, 3, 4, 5, 6, 7, 8, 9, 10, 11, 12],
    initMask := [true, true, true, true, true, true, true, true, true,
      true, true, true],
    relocations := [(0, 3)] }

/-- Witness image for C8: a four-byte span with a mixed defined /
undefined mask, under a threshold that admits it. -/
def c8alloc : AllocM :=
  { bytes := [10, 20, 30, 40],
    initMask := [true, true, false, true],
    relocations := [] }

/-- The C9 counterexample image: sixteen fully defined bytes with one
pointer-sized relocation at offset 8. -/
def c9alloc : AllocM :=
  { bytes := List.range 16,
    initMask := List.replicate 16 true,
    relocations := [(8, 7)] }

mutual

theorem LLType.beq_refl : ∀ a : LLType, LLType.beq a a = true
  | .void => rfl
  | .int _ => by simp [LLType.beq]
  | .float32 => rfl
  | .float64 => rfl
  | .vector e _ => by simp [LLType.beq, LLType.beq_refl e]
  | .array e _ => by simp [LLType.beq, LLType.beq_refl e]
  | .struct_ fs _ => by simp [LLType.beq, LLType.beqList_refl fs]
  | .ptr e _ => by simp [LLType.beq, LLType.beq_refl e]
  | .func ps r _ => by simp [LLType.beq, LLType.beqList_refl ps, LLType.beq_refl r]

theorem LLType.beqList_refl : ∀ l : List LLType, LLType.beqList l l = true
  | [] => rfl
  | a :: as_ => by simp [LLType.beqList, LLType.beq_refl a, LLType.beqList_refl as_]

end

/-- Packed size of an appended field list is the sum of the parts. -/
theorem packedSizeList_append (a b : List LLType) :
    LLType.packedSizeList (a ++ b) =
      LLType.packedSizeList a + LLType.packedSizeList b := by
  induction a with
  | nil => simp [LLType.packedSizeList]
  | cons t ts ih => simp [LLType.packedSizeList, ih, Nat.add_assoc]

/-- Packed size of a replicated field list. -/
theorem packedSizeList_replicate (n : Nat) (t : LLType) :
    LLType.packedSizeList (List.replicate n t) = n * t.packedSizeBytes := by
  induction n with
  | zero => simp [LLType.packedSizeList]
  | succ n ih =>
    simp [List.replicate, LLType.packedSizeList, ih, Nat.succ_mul, Nat.add_comm]

/-- A successfully lowered register chunk has packed size equal to the
chunk's byte size. -/
theorem reg_llvmType_size (r : Reg) (t : LLType) (h : r.llvmType = some t) :
    t.packedSizeBytes = r.size := by
  rcases r with ⟨k, s⟩
  cases k
  · simp only [Reg.llvmType] at h
    cases h
    show (s * 8 + 7) / 8 = s
    rw [Nat.add_comm, Nat.add_mul_div_right 7 s (by norm_num)]
    norm_num
  · simp only [Reg.llvmType] at h
    split_ifs at h with h32 h64 <;> cases h
    · show 4 = s
      omega
    · show 8 = s
      omega
  · simp only [Reg.llvmType] at h
    cases h
    show (8 + 7) / 8 * s = s
    norm_num

/-- A successfully lowered prefix chunk list has packed size equal to
the chunk count times the chunk size. -/
theorem pfx_mapM_size (cs : Nat) : ∀ (ks : List RegKind) (ts : List LLType),
    optionMapList (fun kind => Reg.llvmType { kind := kind, size := cs }) ks
      = some ts →
    LLType.packedSizeList ts = ks.length * cs := by
  intro ks
  induction ks with
  | nil =>
    intro ts h
    simp [optionMapList] at h
    simp [h, LLType.packedSizeList]
  | cons k ks ih =>
    intro ts h
    rcases ht : Reg.llvmType { kind := k, size := cs } with _ | t0
    · rw [optionMapList, ht] at h
      simp at h
    · rw [optionMapList, ht] at h
      rcases hrest : optionMapList
          (fun kind => Reg.llvmType { kind := kind, size := cs }) ks with _ | ts0
      · rw [hrest] at h
        simp at h
      · rw [hrest] at h
        simp at h
        rw [← h, LLType.packedSizeList, reg_llvmType_size _ _ ht, ih ts0 hrest]
        simp [List.length_cons, Nat.succ_mul, Nat.add_comm]

/-- An all-absent prefix contributes no bytes. -/
theorem pfxBytes_of_all_none (ct : CastTarget) (h : ct.pfx.all Option.isNone) :
    ct.pfxBytes = 0 := by
  have : ct.pfx.filterMap id = [] := by
    rw [List.filterMap_eq_nil_iff]
    intro a ha
    have := List.all_eq_true.mp h a ha
    cases a
    · rfl
    · simp at this
  simp [CastTarget.pfxBytes, this]

/-- C3 counterexample: the claim says the lowered type's byte size
always equals the declared total, but the bare-unit simplification
returns the full 8-byte unit for a cast target whose declared total is
4 bytes. -/
theorem claim_C3_counterexample :
    c3ct.llvmType = some (LLType.int 64) ∧
    LLType.packedSizeBytes (LLType.int 64) = 8 ∧
    c3ct.totalSize = 4 ∧
    LLType.packedSizeBytes (LLType.int 64) ≠ c3ct.totalSize :=
  ⟨rfl, rfl, rfl, by decide⟩

/-- C3 (amended): for every cast target with a positive rest-unit size
that lowers successfully, the packed byte size of the lowered type
equals the declared total, except that the empty-prefix single-unit
simplification with a total strictly below the unit size yields the
bare unit at the unit's full size. -/
theorem claim_C3_amended (ct : CastTarget) (t : LLType)
    (hu : 0 < ct.rest.unit.size) (h : ct.llvmType = some t) :
    t.packedSizeBytes =
      if ct.pfx.all Option.isNone ∧ ct.rest.total < ct.rest.unit.size
      then ct.rest.unit.size else ct.totalSize := by
  have hsz : ¬ ct.rest.unit.size = 0 := by omega
  rcases hb : ct.rest.unit.llvmType with _ | u
  · rw [CastTarget.llvmType, hb] at h
    simp at h
  · rw [CastTarget.llvmType, hb] at h
    simp only [Option.some_bind, hsz, if_false] at h
    have hnc1 : ¬ (ct.pfx.all Option.isNone ∧
        ct.rest.total ≤ ct.rest.unit.size) →
        ¬ (ct.pfx.all Option.isNone ∧
        ct.rest.total < ct.rest.unit.size) := by
      intro hn hc
      exact hn ⟨hc.1, Nat.le_of_lt hc.2⟩
    have hdm : ct.rest.total / ct.rest.unit.size * ct.rest.unit.size
        + ct.rest.total % ct.rest.unit.size = ct.rest.total := by
      rw [Nat.mul_comm]
      exact Nat.div_add_mod _ _
    split_ifs at h with h1 h2 h3 h4
    · cases h
      by_cases hlt : ct.rest.total < ct.rest.unit.size
      · rw [if_pos ⟨h1.1, hlt⟩]
        exact reg_llvmType_size _ _ hb
      · rw [if_neg (fun hc => hlt hc.2)]
        have hte : ct.rest.total = ct.rest.unit.size :=
          Nat.le_antisymm h1.2 (Nat.not_lt.mp hlt)
        rw [CastTarget.totalSize, pfxBytes_of_all_none ct h1.1, hte]
        simpa using reg_llvmType_size _ _ hb
    · cases h
      rw [if_neg (hnc1 h1)]
      show u.packedSizeBytes * (ct.rest.total / ct.rest.unit.size) = ct.totalSize
      rw [reg_llvmType_size _ _ hb, CastTarget.totalSize,
        pfxBytes_of_all_none ct h2.1]
      have hdvd : ct.rest.unit.size ∣ ct.rest.total :=
        Nat.dvd_of_mod_eq_zero h2.2
      rw [Nat.mul_div_cancel' hdvd]
      simp
    · rw [if_neg (hnc1 h1)]
      rcases hm : optionMapList
          (fun kind => Reg.llvmType { kind := kind, size := ct.pfx_chunk_size })
          (ct.pfx.filterMap id) with _ | pfx_tys
      · rw [hm] at h
        simp at h
      · rw [hm] at h
        simp only [Option.bind_eq_bind', Option.some_bind', Option.some.injEq] at h
        rw [← h]
        show LLType.packedSizeList
          (pfx_tys ++ List.replicate (ct.rest.total / ct.rest.unit.size) u)
          = ct.totalSize
        rw [packedSizeList_append, packedSizeList_replicate,
          pfx_mapM_size _ _ _ hm, reg_llvmType_size _ _ hb]
        have hdvd : ct.rest.unit.size ∣ ct.rest.total :=
          Nat.dvd_of_mod_eq_zero h3
        rw [Nat.mul_comm (ct.rest.total / ct.rest.unit.size),
          Nat.mul_div_cancel' hdvd]
        rfl
    · rw [if_neg (hnc1 h1)]
      rcases hm : optionMapList
          (fun kind => Reg.llvmType { kind := kind, size := ct.pfx_chunk_size })
          (ct.pfx.filterMap id) with _ | pfx_tys
      · rw [hm] at h
        simp at h
      · rw [hm] at h
        simp only [Option.bind_eq_bind', Option.some_bind', Option.some.injEq] at h
        rw [← h]
        show LLType.packedSizeList
          (pfx_tys ++ List.replicate (ct.rest.total / ct.rest.unit.size) u
            ++ [LLType.int (ct.rest.total % ct.rest.unit.size * 8)])
          = ct.totalSize
        rw [packedSizeList_append, packedSizeList_append,
          packedSizeList_replicate, pfx_mapM_size _ _ _ hm,
          reg_llvmType_size _ _ hb]
        have hrem : LLType.packedSizeList
            [LLType.int (ct.rest.total % ct.rest.unit.size * 8)]
            = ct.rest.total % ct.rest.unit.size := by
          show (ct.rest.total % ct.rest.unit.size * 8 + 7) / 8 + 0
            = ct.rest.total % ct.rest.unit.size
          rw [Nat.add_comm (ct.rest.total % ct.rest.unit.size * 8),
            Nat.add_mul_div_right 7 _ (by norm_num)]
          norm_num
        rw [hrem, Nat.add_assoc, hdm]
        rfl
    · rw [if_neg (hnc1 h1)]
      rcases hm : optionMapList
          (fun kind => Reg.llvmType { kind := kind, size := ct.pfx_chunk_size })
          (ct.pfx.filterMap id) with _ | pfx_tys
      · rw [hm] at h
        simp at h
      · rw [hm] at h
        simp at h

/-- Witness for the amended C3 at a concrete cast target. -/
theorem claim_C3_amended_witness :
    LLType.packedSizeBytes
        (LLType.struct_ [LLType.int 64, LLType.int 32, LLType.int 16] false) =
      if c3wct.pfx.all Option.isNone ∧ c3wct.rest.total < c3wct.rest.unit.size
      then c3wct.rest.unit.size else c3wct.totalSize :=
  claim_C3_amended c3wct
    (LLType.struct_ [LLType.int 64, LLType.int 32, LLType.int 16] false)
    (by decide) rfl

/-- C7: the definition-site and call-site attribute application
functions follow the same decision rules, and both follow the spec's
rule order: dereferenceable or dereferenceable-or-null when the pointee
size is nonzero (by NonNull), NonNull then dropped from the generic
flags, pointee alignment next, remaining boolean flags, extension mode
last and only when not None. -/
theorem claim_C7 (a : ArgAttributes) (idx : AttrPlace) :
    a.apply_attrs_to_llfn idx = a.apply_attrs_to_callsite idx ∧
    a.apply_attrs_to_llfn idx = attr_rules_spec a idx := by
  constructor
  · rfl
  · rcases a with ⟨reg, ext, ps, pa⟩
    cases ext <;> rfl

/-- C5: a descriptor whose return classification is Indirect with
on_stack set makes both attribute-application entry points abort
(the failed assertion is modelled as none); it is never accepted. -/
theorem claim_C5 (f : FnAbiM) (attrs : ArgAttributes)
    (extra : Option ArgAttributes)
    (h : f.ret.mode = PassModeM.indirect attrs extra true) :
    fnApplyAttrsLlfn f = none ∧ fnApplyAttrsCallsite f = none := by
  constructor
  · rw [fnApplyAttrsLlfn, h]
    rfl
  · rw [fnApplyAttrsCallsite, h]
    rfl

/-- Witness for C5 at a concrete descriptor. -/
theorem claim_C5_witness :
    fnApplyAttrsLlfn c5fn = none ∧ fnApplyAttrsCallsite c5fn = none :=
  claim_C5 c5fn ArgAttributes.new none rfl

/-- The zst adjustment never changes the layout or padding. -/
theorem readjust_zst_layout (b : ArgAbiM) :
    (readjust_zst b).layout = b.layout ∧ (readjust_zst b).pad = b.pad := by
  unfold readjust_zst
  split_ifs <;> exact ⟨rfl, rfl⟩

/-- The slice-reference adjustment never changes the layout or padding. -/
theorem readjust_slice_ref_layout (b : ArgAbiM) :
    (readjust_slice_ref b).layout = b.layout ∧
    (readjust_slice_ref b).pad = b.pad := by
  rcases b with ⟨⟨ty, abi, zstF, imm, pA, pB, mT⟩, mode, pad⟩
  cases ty <;> first
  | exact ⟨rfl, rfl⟩
  | (rename_i p
     cases p <;> exact ⟨rfl, rfl⟩)

/-- The array adjustment never changes the layout or padding. -/
theorem readjust_array_layout (b : ArgAbiM) :
    (readjust_array b).layout = b.layout ∧ (readjust_array b).pad = b.pad := by
  unfold readjust_array
  split_ifs <;> exact ⟨rfl, rfl⟩

/-- The aggregate adjustment never changes the layout or padding. -/
theorem readjust_aggregate_layout (b : ArgAbiM) :
    (readjust_aggregate b).layout = b.layout ∧
    (readjust_aggregate b).pad = b.pad := by
  unfold readjust_aggregate
  split_ifs <;> exact ⟨rfl, rfl⟩

/-- The full readjustment never changes the layout. -/
theorem readjust_arg_abi_layout (b : ArgAbiM) :
    (readjust_arg_abi b).layout = b.layout := by
  unfold readjust_arg_abi
  rw [(readjust_aggregate_layout _).1, (readjust_array_layout _).1,
    (readjust_slice_ref_layout _).1, (readjust_zst_layout _).1]

/-- A non-zst argument is untouched by the zst adjustment. -/
theorem readjust_zst_of_not (b : ArgAbiM) (h : b.layout.zst = false) :
    readjust_zst b = b := by
  unfold readjust_zst
  rw [h]
  simp

/-- A zst argument is reclassified to Ignore by the zst adjustment. -/
theorem readjust_zst_mode (b : ArgAbiM) (h : b.layout.zst = true) :
    (readjust_zst b).mode = PassModeM.ignore := by
  unfold readjust_zst
  rw [h]
  simp

/-- An argument that is not a reference to a slice is untouched by the
slice-reference adjustment. -/
theorem readjust_slice_ref_of_not (b : ArgAbiM)
    (h : b.layout.ty.is_ref_to_slice = false) : readjust_slice_ref b = b := by
  rcases b with ⟨⟨ty, abi, zstF, imm, pA, pB, mT⟩, mode, pad⟩
  cases ty <;> first
  | rfl
  | (rename_i p
     cases p <;> first
     | rfl
     | simp [TyK.is_ref_to_slice] at h)

/-- A reference-to-slice argument becomes a Pair under the
slice-reference adjustment. -/
theorem readjust_slice_ref_mode (b : ArgAbiM)
    (h : b.layout.ty.is_ref_to_slice = true) :
    ∃ x y, (readjust_slice_ref b).mode = PassModeM.pair x y := by
  rcases b with ⟨⟨ty, abi, zstF, imm, pA, pB, mT⟩, mode, pad⟩
  cases ty <;> first
  | (rename_i p
     cases p <;> first
     | exact ⟨_, _, rfl⟩
     | simp [TyK.is_ref_to_slice] at h)
  | simp [TyK.is_ref_to_slice] at h

/-- A non-array argument is untouched by the array adjustment. -/
theorem readjust_array_of_not (b : ArgAbiM) (h : b.layout.ty.is_array = false) :
    readjust_array b = b := by
  unfold readjust_array
  rw [h]
  simp

/-- An array argument is Direct after the array adjustment. -/
theorem readjust_array_mode (b : ArgAbiM) (h : b.layout.ty.is_array = true) :
    ∃ x, (readjust_array b).mode = PassModeM.direct x := by
  unfold readjust_array
  rcases hm : b.mode <;> simp [h, hm, PassModeM.is_direct]

/-- A non-Indirect argument is untouched by the aggregate adjustment. -/
theorem readjust_aggregate_of_not (b : ArgAbiM)
    (h : b.mode.is_indirect = false) : readjust_aggregate b = b := by
  unfold readjust_aggregate
  rw [h]
  simp

/-- After the aggregate adjustment no aggregate-layout argument is
Indirect. -/
theorem readjust_aggregate_result (b : ArgAbiM) :
    ¬ ((readjust_aggregate b).layout.abi.is_aggregate = true ∧
       (readjust_aggregate b).mode.is_indirect = true) := by
  unfold readjust_aggregate
  split_ifs with hc
  · intro hcontra
    simp [PassModeM.is_indirect] at hcontra
  · intro hcontra
    rw [Bool.and_eq_true] at hc
    exact hc hcontra

/-- A reference type is never an array type. -/
theorem ref_to_slice_not_array (t : TyK) (h : t.is_ref_to_slice = true) :
    t.is_array = false := by
  cases t <;> simp [TyK.is_array, TyK.is_ref_to_slice] at h ⊢

/-- An array type is never a reference to a slice. -/
theorem array_not_ref_to_slice (t : TyK) (h : t.is_array = true) :
    t.is_ref_to_slice = false := by
  cases t <;> simp [TyK.is_array, TyK.is_ref_to_slice] at h ⊢

/-- The four per-argument properties of the readjusted argument. -/
theorem readjust_arg_props (b : ArgAbiM) :
    (¬ ((readjust_arg_abi b).layout.abi.is_aggregate = true ∧
        (readjust_arg_abi b).mode.is_indirect = true)) ∧
    (b.layout.zst = true → b.layout.ty.is_array = false →
      b.layout.ty.is_ref_to_slice = false →
      (readjust_arg_abi b).mode = PassModeM.ignore) ∧
    (b.layout.ty.is_ref_to_slice = true →
      ∃ x y, (readjust_arg_abi b).mode = PassModeM.pair x y) ∧
    (b.layout.ty.is_array = true →
      ∃ x, (readjust_arg_abi b).mode = PassModeM.direct x) := by
  refine ⟨readjust_aggregate_result _, ?_, ?_, ?_⟩
  · intro hz ha hr
    unfold readjust_arg_abi
    have h1 : (readjust_zst b).mode = PassModeM.ignore := readjust_zst_mode b hz
    have hty : (readjust_zst b).layout = b.layout := (readjust_zst_layout b).1
    rw [readjust_slice_ref_of_not _ (by rw [hty]; exact hr)]
    rw [readjust_array_of_not _ (by rw [hty]; exact ha)]
    rw [readjust_aggregate_of_not _ (by rw [h1]; rfl)]
    exact h1
  · intro hr
    unfold readjust_arg_abi
    have hty : (readjust_zst b).layout = b.layout := (readjust_zst_layout b).1
    obtain ⟨x, y, hxy⟩ := readjust_slice_ref_mode (readjust_zst b)
      (by rw [hty]; exact hr)
    have hty2 : (readjust_slice_ref (readjust_zst b)).layout = b.layout := by
      rw [(readjust_slice_ref_layout _).1, hty]
    rw [readjust_array_of_not _
      (by rw [hty2]; exact ref_to_slice_not_array _ hr)]
    rw [readjust_aggregate_of_not _ (by rw [hxy]; rfl)]
    exact ⟨x, y, hxy⟩
  · intro ha
    unfold readjust_arg_abi
    have hty : (readjust_zst b).layout = b.layout := (readjust_zst_layout b).1
    rw [readjust_slice_ref_of_not _
      (by rw [hty]; exact array_not_ref_to_slice _ ha)]
    obtain ⟨x, hx⟩ := readjust_array_mode (readjust_zst b) (by rw [hty]; exact ha)
    rw [readjust_aggregate_of_not _ (by rw [hx]; rfl)]
    exact ⟨x, hx⟩

/-- C10 counterexample: the claim says every zero-sized argument of a
non-Rust-convention descriptor is reclassified to Ignore, but a
zero-sized array-typed argument ends up Direct, because the later
array rule overrides the zst rule. -/
theorem claim_C10_counterexample :
    c10fn.conv ≠ ConvM.rust ∧
    (c10fn.args.map fun a => a.layout.zst) = [true] ∧
    ((readjust_fn_abi c10fn).args.map ArgAbiM.mode)
      = [PassModeM.direct ArgAttributes.new] ∧
    ((readjust_fn_abi c10fn).args.map ArgAbiM.mode) ≠ [PassModeM.ignore] :=
  ⟨by decide, rfl, rfl, by decide⟩

/-- C10 (amended): readjustment leaves Rust-convention descriptors
unchanged; for any other convention every argument and the return obey
the four sequential rules with later rules overriding earlier ones:
no aggregate-layout entry is left Indirect, a zero-sized entry that is
neither array-typed nor a slice reference is Ignore, a slice-reference
entry is a Pair, and an array-typed entry is Direct (overriding Ignore
for zero-sized arrays). -/
theorem claim_C10_amended (f : FnAbiM) (h : f.conv ≠ ConvM.rust) :
    (∀ a, (a ∈ (readjust_fn_abi f).args ∨ a = (readjust_fn_abi f).ret) →
      (¬ (a.layout.abi.is_aggregate = true ∧ a.mode.is_indirect = true)) ∧
      (a.layout.zst = true → a.layout.ty.is_array = false →
        a.layout.ty.is_ref_to_slice = false → a.mode = PassModeM.ignore) ∧
      (a.layout.ty.is_ref_to_slice = true →
        ∃ x y, a.mode = PassModeM.pair x y) ∧
      (a.layout.ty.is_array = true → ∃ x, a.mode = PassModeM.direct x)) ∧
    (∀ g : FnAbiM, g.conv = ConvM.rust → readjust_fn_abi g = g) := by
  constructor
  · intro a ha
    have hmem : ∃ b, a = readjust_arg_abi b := by
      rcases ha with ha | ha
      · rw [readjust_fn_abi, if_neg h] at ha
        simp only [List.mem_map] at ha
        obtain ⟨b, _, hb⟩ := ha
        exact ⟨b, hb.symm⟩
      · rw [readjust_fn_abi, if_neg h] at ha
        exact ⟨f.ret, ha⟩
    obtain ⟨b, rfl⟩ := hmem
    have hprops := readjust_arg_props b
    have hlay : (readjust_arg_abi b).layout = b.layout := readjust_arg_abi_layout b
    refine ⟨hprops.1, ?_, ?_, ?_⟩
    · rw [hlay]
      exact hprops.2.1
    · rw [hlay]
      exact hprops.2.2.1
    · rw [hlay]
      exact hprops.2.2.2
  · intro g hg
    rw [readjust_fn_abi, if_pos hg]

/-- Witness for the amended C10: the readjusted return of the concrete
counterexample descriptor (whose return layout is not zero-sized, not
an array and not a slice reference) keeps its Ignore mode, via the
amended theorem's aggregate rule and zst rule shape. -/
theorem claim_C10_amended_witness :
    ¬ (((readjust_fn_abi c10fn).ret.layout.abi.is_aggregate = true) ∧
       ((readjust_fn_abi c10fn).ret.mode.is_indirect = true)) :=
  ((claim_C10_amended c10fn (by decide)).1 (readjust_fn_abi c10fn).ret
    (Or.inr rfl)).1

/-- Range metadata is never produced by per-argument call-site
attribute application. -/
theorem retRange_not_mem_callsite (a : ArgAttributes) (idx : AttrPlace)
    (lo hi : Nat) : AttrEffect.retRange lo hi ∉ a.apply_attrs_to_callsite idx := by
  intro hmem
  rcases a with ⟨reg, ext, ps, pa⟩
  by_cases hp : ps = 0 <;>
  rcases hb : reg.nonNull <;>
  rcases pa with _ | al <;>
  rcases ext <;>
  simp [ArgAttributes.apply_attrs_to_callsite, hp, hb, List.mem_append,
    List.mem_map] at hmem

/-- One call-site argument step only appends argument attribute
effects: the effect list grows by a retRange-free suffix. -/
theorem callsite_arg_step_retRange (st : Nat × List AttrEffect) (arg : ArgAbiM)
    (lo hi : Nat)
    (h : AttrEffect.retRange lo hi ∈ (fn_apply_attrs_callsite_arg st arg).2) :
    AttrEffect.retRange lo hi ∈ st.2 := by
  have hpad : AttrEffect.retRange lo hi ∈
      (if arg.pad.isSome then
        (st.1 + 1, st.2 ++
          ArgAttributes.new.apply_attrs_to_callsite (AttrPlace.argument st.1))
       else st).2 →
      AttrEffect.retRange lo hi ∈ st.2 := by
    intro hin
    by_cases hps : arg.pad.isSome
    · rw [if_pos hps] at hin
      rcases List.mem_append.mp hin with hin | hin
      · exact hin
      · exact absurd hin (retRange_not_mem_callsite _ _ _ _)
    · rwa [if_neg hps] at hin
  rw [fn_apply_attrs_callsite_arg] at h
  rcases hm : arg.mode with _ | attrs | ⟨a, b⟩ | ca | ⟨attrs, extra, os⟩ <;>
    rw [hm] at h
  · exact hpad h
  · rcases List.mem_append.mp h with h | h
    · exact hpad h
    · exact absurd h (retRange_not_mem_callsite _ _ _ _)
  · rcases List.mem_append.mp h with h | h
    · rcases List.mem_append.mp h with h | h
      · exact hpad h
      · exact absurd h (retRange_not_mem_callsite _ _ _ _)
    · exact absurd h (retRange_not_mem_callsite _ _ _ _)
  · rcases List.mem_append.mp h with h | h
    · exact hpad h
    · exact absurd h (retRange_not_mem_callsite _ _ _ _)
  · rcases extra with _ | extra <;> rcases os
    · rcases List.mem_append.mp h with h | h
      · exact hpad h
      · exact absurd h (retRange_not_mem_callsite _ _ _ _)
    · rcases List.mem_append.mp h with h | h
      · exact hpad h
      · exact absurd h (retRange_not_mem_callsite _ _ _ _)
    · rcases List.mem_append.mp h with h | h
      · rcases List.mem_append.mp h with h | h
        · exact hpad h
        · exact absurd h (retRange_not_mem_callsite _ _ _ _)
      · exact absurd h (retRange_not_mem_callsite _ _ _ _)
    · rcases List.mem_append.mp h with h | h
      · rcases List.mem_append.mp h with h | h
        · exact hpad h
        · exact absurd h (retRange_not_mem_callsite _ _ _ _)
      · exact absurd h (retRange_not_mem_callsite _ _ _ _)

/-- One call-site argument step preserves the effects accumulated so
far as a prefix. -/
theorem callsite_arg_step_grows (st : Nat × List AttrEffect) (arg : ArgAbiM) :
    ∃ l, (fn_apply_attrs_callsite_arg st arg).2 = st.2 ++ l := by
  have hpad : ∃ l0, (if arg.pad.isSome then
      (st.1 + 1, st.2 ++
        ArgAttributes.new.apply_attrs_to_callsite (AttrPlace.argument st.1))
     else st).2 = st.2 ++ l0 := by
    by_cases hps : arg.pad.isSome
    · rw [if_pos hps]
      exact ⟨_, rfl⟩
    · rw [if_neg hps]
      exact ⟨[], (List.append_nil _).symm⟩
  obtain ⟨l0, hl0⟩ := hpad
  rw [fn_apply_attrs_callsite_arg]
  rcases hm : arg.mode with _ | attrs | ⟨a, b⟩ | ca | ⟨attrs, extra, os⟩
  · exact ⟨l0, hl0⟩
  · exact ⟨_, by dsimp only; rw [hl0, List.append_assoc]⟩
  · exact ⟨_, by dsimp only; rw [hl0, List.append_assoc, List.append_assoc]⟩
  · exact ⟨_, by dsimp only; rw [hl0, List.append_assoc]⟩
  · rcases extra with _ | extra <;> rcases os
    · exact ⟨_, by dsimp only; rw [hl0, List.append_assoc]⟩
    · exact ⟨_, by dsimp only; rw [hl0, List.append_assoc]⟩
    · exact ⟨_, by dsimp only; rw [hl0, List.append_assoc, List.append_assoc]⟩
    · exact ⟨_, by dsimp only; rw [hl0, List.append_assoc, List.append_assoc]⟩

/-- Membership of range metadata in the folded call-site argument loop
reduces to membership in the initial effects. -/
theorem callsite_fold_retRange (args : List ArgAbiM) (lo hi : Nat) :
    ∀ st : Nat × List AttrEffect,
    (AttrEffect.retRange lo hi ∈
      (args.foldl fn_apply_attrs_callsite_arg st).2 ↔
     AttrEffect.retRange lo hi ∈ st.2) := by
  induction args with
  | nil => intro st; exact Iff.rfl
  | cons a rest ih =>
    intro st
    rw [List.foldl_cons]
    constructor
    · intro h
      exact callsite_arg_step_retRange st a lo hi ((ih _).mp h)
    · intro h
      apply (ih _).mpr
      obtain ⟨l, hl⟩ := callsite_arg_step_grows st a
      rw [hl]
      exact List.mem_append.mpr (Or.inl h)

/-- C6: at a call site, value-range metadata is attached to the return
value if and only if the return layout is a scalar of integer kind
that is not a boolean and whose declared valid range does not cover the
full representable range; in particular a boolean return never receives
range metadata. -/
theorem claim_C6 (f : FnAbiM) (effs : List AttrEffect)
    (h : fnApplyAttrsCallsite f = some effs) :
    (∃ lo hi, AttrEffect.retRange lo hi ∈ effs) ↔
    (∃ s, f.ret.layout.abi = AbiM.scalar s ∧
      (∃ w sg, s.value = Primitive.int w sg) ∧
      s.is_bool = false ∧ s.is_always_valid = false) := by
  rw [fnApplyAttrsCallsite] at h
  have core : ∀ (i : Nat) (retEffs : List AttrEffect),
      (∀ lo hi, AttrEffect.retRange lo hi ∉ retEffs) →
      effs = (f.args.foldl fn_apply_attrs_callsite_arg
        (i, retEffs ++ (match f.ret.layout.abi with
          | AbiM.scalar s =>
            match s.value with
            | Primitive.int _ _ =>
              if !s.is_bool && !s.is_always_valid then
                [AttrEffect.retRange s.valid_range.start s.valid_range.stop]
              else []
            | _ => []
          | _ => []))).2 →
      ((∃ lo hi, AttrEffect.retRange lo hi ∈ effs) ↔
       (∃ s, f.ret.layout.abi = AbiM.scalar s ∧
        (∃ w sg, s.value = Primitive.int w sg) ∧
        s.is_bool = false ∧ s.is_always_valid = false)) := by
    intro i retEffs hfree heq
    constructor
    · rintro ⟨lo, hi, hmem⟩
      rw [heq] at hmem
      have hbase := (callsite_fold_retRange f.args lo hi _).mp hmem
      rcases List.mem_append.mp hbase with hbase | hbase
      · exact absurd hbase (hfree lo hi)
      · rcases habi : f.ret.layout.abi with _ | s | _ | _ | _ <;>
          rw [habi] at hbase <;> simp at hbase
        rcases hval : s.value with ⟨w, sg⟩ | _ | _ | _ <;>
          rw [hval] at hbase <;> simp at hbase
        exact ⟨s, rfl, ⟨w, sg, hval⟩, hbase.1.1, hbase.1.2⟩
    · rintro ⟨s, habi, ⟨w, sg, hval⟩, hbool, hvalid⟩
      refine ⟨s.valid_range.start, s.valid_range.stop, ?_⟩
      rw [heq]
      apply (callsite_fold_retRange f.args _ _ _).mpr
      apply List.mem_append.mpr
      right
      rw [habi]
      dsimp only
      rw [hval]
      dsimp only
      simp [hbool, hvalid]
  rcases hm : f.ret.mode with _ | attrs | ⟨a, b⟩ | ca | ⟨attrs, extra, os⟩ <;>
    rw [hm] at h
  · simp only [Option.bind_eq_bind', Option.some_bind', Option.some.injEq] at h
    exact core 0 [] (fun lo hi hc => by simp at hc) h.symm
  · simp only [Option.bind_eq_bind', Option.some_bind', Option.some.injEq] at h
    exact core 0 _ (fun lo hi => retRange_not_mem_callsite _ _ _ _) h.symm
  · simp only [Option.bind_eq_bind', Option.some_bind', Option.some.injEq] at h
    exact core 0 [] (fun lo hi hc => by simp at hc) h.symm
  · simp only [Option.bind_eq_bind', Option.some_bind', Option.some.injEq] at h
    exact core 0 [] (fun lo hi hc => by simp at hc) h.symm
  · rcases os
    · simp only [Bool.false_eq_true, if_false, Option.bind_eq_bind',
        Option.some_bind', Option.some.injEq] at h
      exact core 1 _ (fun lo hi => retRange_not_mem_callsite _ _ _ _) h.symm
    · simp at h

/-- Witness for C6: the narrow-range non-boolean scalar integer return
receives range metadata. -/
theorem claim_C6_witness : ∃ lo hi, AttrEffect.retRange lo hi ∈ c6effs :=
  (claim_C6 c6fn c6effs rfl).mpr
    ⟨c6scalar, rfl, ⟨IntWidth.i32, false, rfl⟩, rfl, rfl⟩

/-- Unfolding of the argument loop on an empty list. -/
theorem lowerArgs_nil (cx : CxM) (idx : Nat) :
    lowerArgs cx [] idx = some ([], [], []) := rfl

/-- An unpadded Ignore argument emits nothing. -/
theorem lowerOneArg_ignore (cx : CxM) (arg : ArgAbiM) (idx : Nat)
    (hp : arg.pad = none) (hm : arg.mode = PassModeM.ignore) :
    lowerOneArg cx arg idx = some ([], [], []) := by
  rw [lowerOneArg, hp, hm]
  rfl

/-- An unpadded Direct argument emits one slot: its immediate type
passed through classify, with a remap entry exactly when the
classification reported a change. -/
theorem lowerOneArg_direct (cx : CxM) (arg : ArgAbiM) (idx : Nat)
    (x : ArgAttributes) (hp : arg.pad = none)
    (hm : arg.mode = PassModeM.direct x) :
    lowerOneArg cx arg idx = some ([(cx.classify arg.layout.immediate).1],
      if (cx.classify arg.layout.immediate).2
      then [(idx, arg.layout.immediate)] else [],
      [arg.layout.immediate]) := by
  rw [lowerOneArg, hp, hm]
  rfl

/-- A descriptor whose return is not Indirect pushes no hidden return
pointer. -/
theorem sretParams_of_not_indirect (f : FnAbiM)
    (h : ∀ x e o, f.ret.mode ≠ PassModeM.indirect x e o) :
    sretParams f = [] := by
  rw [sretParams]
  rcases hm : f.ret.mode with _ | attrs | ⟨a, b⟩ | ca | ⟨attrs, extra, os⟩
  · rfl
  · rfl
  · rfl
  · rfl
  · exact absurd hm (h attrs extra os)

/-- The slot types of a Direct/Ignore argument list are the classified
immediates of the Direct arguments, in order. -/
theorem lowerArgs_direct_ignore (cx : CxM) : ∀ (args : List ArgAbiM)
    (idx : Nat) (tys : List LLType) (tr : List (Nat × LLType))
    (cons : List LLType),
    (∀ a ∈ args, a.pad = none ∧
      (a.mode = PassModeM.ignore ∨ ∃ x, a.mode = PassModeM.direct x)) →
    lowerArgs cx args idx = some (tys, tr, cons) →
    tys = args.filterMap (fun a =>
      match a.mode with
      | PassModeM.direct _ => some ((cx.classify a.layout.immediate).1)
      | _ => none) := by
  intro args
  induction args with
  | nil =>
    intro idx tys tr cons _ h
    rw [lowerArgs_nil] at h
    cases h
    rfl
  | cons a rest ih =>
    intro idx tys tr cons hmodes h
    obtain ⟨hp, hmode⟩ := hmodes a (List.mem_cons_self a rest)
    have hrest := fun b hb => hmodes b (List.mem_cons_of_mem a hb)
    simp only [lowerArgs] at h
    rcases hmode with hmode | ⟨x, hmode⟩
    · rw [lowerOneArg_ignore cx a idx hp hmode] at h
      simp only [Option.bind_eq_bind', Option.some_bind'] at h
      rcases hrec : lowerArgs cx rest (idx + List.length []) with _ | ⟨tysB, trB, consB⟩
      · rw [hrec] at h
        simp at h
      · rw [hrec] at h
        simp only [Option.some_bind', Option.some.injEq] at h
        cases h
        rw [List.filterMap_cons]
        have : (match a.mode with
          | PassModeM.direct _ => some ((cx.classify a.layout.immediate).1)
          | _ => none) = none := by rw [hmode]
        rw [this]
        simpa using ih _ _ _ _ hrest hrec
    · rw [lowerOneArg_direct cx a idx x hp hmode] at h
      simp only [Option.bind_eq_bind', Option.some_bind'] at h
      rcases hrec : lowerArgs cx rest
          (idx + List.length [(cx.classify a.layout.immediate).1])
          with _ | ⟨tysB, trB, consB⟩
      · rw [hrec] at h
        simp at h
      · rw [hrec] at h
        simp only [Option.some_bind', Option.some.injEq] at h
        cases h
        rw [List.filterMap_cons]
        have : (match a.mode with
          | PassModeM.direct _ => some ((cx.classify a.layout.immediate).1)
          | _ => none) = some ((cx.classify a.layout.immediate).1) := by
          rw [hmode]
        rw [this]
        simpa using ih _ _ _ _ hrest hrec

/-- Length of the Direct-slot projection equals the non-Ignore count. -/
theorem filterMap_direct_length (cx : CxM) : ∀ (args : List ArgAbiM),
    (∀ a ∈ args,
      a.mode = PassModeM.ignore ∨ ∃ x, a.mode = PassModeM.direct x) →
    (args.filterMap (fun a =>
      match a.mode with
      | PassModeM.direct _ => some ((cx.classify a.layout.immediate).1)
      | _ => none)).length =
    (args.filter (fun a => decide (a.mode ≠ PassModeM.ignore))).length := by
  intro args
  induction args with
  | nil => intro _; rfl
  | cons a rest ih =>
    intro hmodes
    have hrest := fun b hb => hmodes b (List.mem_cons_of_mem a hb)
    rw [List.filterMap_cons, List.filter_cons]
    rcases hmodes a (List.mem_cons_self a rest) with hmode | ⟨x, hmode⟩ <;>
      rw [hmode] <;> simp [ih hrest]

/-- C4: for a descriptor whose arguments are all Direct or Ignore
without padding and whose return is not Indirect, the lowered function
type has exactly one parameter per non-Ignore argument, in declaration
order, each Direct argument contributing its immediate type (routed
through the mandatory classify step; with a change-free classifier the
parameters are exactly the immediate types). -/
theorem claim_C4 (cx : CxM) (f : FnAbiM) (r : FnLowering)
    (hargs : ∀ a ∈ f.args, a.pad = none ∧
      (a.mode = PassModeM.ignore ∨ ∃ x, a.mode = PassModeM.direct x))
    (hret : ∀ x e o, f.ret.mode ≠ PassModeM.indirect x e o)
    (h : fnLlvmType cx f = some r) :
    r.params.length =
      (f.args.filter (fun a => decide (a.mode ≠ PassModeM.ignore))).length ∧
    r.params = f.args.filterMap (fun a =>
      match a.mode with
      | PassModeM.direct _ => some ((cx.classify a.layout.immediate).1)
      | _ => none) ∧
    ((∀ t, cx.classify t = (t, false)) →
      r.params = f.args.filterMap (fun a =>
        match a.mode with
        | PassModeM.direct _ => some a.layout.immediate
        | _ => none)) := by
  rw [fnLlvmType] at h
  rcases hr0 : retPreType f with _ | ret0
  · rw [hr0] at h
    simp at h
  · rw [hr0] at h
    simp only [Option.bind_eq_bind', Option.some_bind'] at h
    rcases hla : lowerArgs cx f.args (sretParams f).length
        with _ | ⟨argTys, trE, consE⟩
    · rw [hla] at h
      simp at h
    · rw [hla] at h
      simp only [Option.some_bind', Option.some.injEq] at h
      have hparams : r.params = sretParams f ++ argTys := by
        rw [← h]
      rw [sretParams_of_not_indirect f hret] at hparams
      have hmain := lowerArgs_direct_ignore cx f.args _ _ _ _ hargs hla
      have h2 : r.params = f.args.filterMap (fun a =>
          match a.mode with
          | PassModeM.direct _ => some ((cx.classify a.layout.immediate).1)
          | _ => none) := by
        rw [hparams, List.nil_append, hmain]
      refine ⟨?_, h2, ?_⟩
      · rw [h2]
        exact filterMap_direct_length cx f.args (fun a ha => (hargs a ha).2)
      · intro hid
        rw [h2]
        simp only [hid]

/-- Full characterization of one argument's slot emission: the
consulted types are exactly the single-slot pre-types, the recorded
remap entries are exactly the changed consulted slots with in-range
indices pointing at the classified emitted type, and recorded indices
are strictly increasing. -/
theorem lowerOneArg_spec (cx : CxM) (arg : ArgAbiM) (idx : Nat)
    (tysA : List LLType) (trA : List (Nat × LLType)) (consA : List LLType)
    (h : lowerOneArg cx arg idx = some (tysA, trA, consA)) :
    consA = Option.toList (match arg.mode with
      | PassModeM.direct _ => some arg.layout.immediate
      | PassModeM.cast c => c.llvmType
      | PassModeM.indirect _ none _ => some (LLType.ptr arg.layout.memTy 0)
      | _ => none) ∧
    trA.map Prod.snd = consA.filter (fun t => (cx.classify t).2) ∧
    (∀ p ∈ trA, idx ≤ p.1 ∧ p.1 < idx + tysA.length ∧
      tysA.get? (p.1 - idx) = some (cx.classify p.2).1 ∧
      (cx.classify p.2).2 = true) ∧
    List.Pairwise (fun p q => p.1 < q.1) trA := by
  have hsingle : ∀ (padTys : List LLType) (t : LLType),
      tysA = padTys ++ [(cx.classify t).1] →
      trA = (if (cx.classify t).2 then [(idx + padTys.length, t)] else []) →
      consA = [t] →
      (trA.map Prod.snd = consA.filter (fun u => (cx.classify u).2) ∧
       (∀ p ∈ trA, idx ≤ p.1 ∧ p.1 < idx + tysA.length ∧
         tysA.get? (p.1 - idx) = some (cx.classify p.2).1 ∧
         (cx.classify p.2).2 = true) ∧
       List.Pairwise (fun p q => p.1 < q.1) trA) := by
    intro padTys t hty htr hcons
    by_cases hch : (cx.classify t).2
    · rw [if_pos hch] at htr
      subst hty htr hcons
      refine ⟨by simp [hch], ?_, by simp⟩
      intro p hp
      rcases List.mem_singleton.mp hp with rfl
      refine ⟨Nat.le_add_right _ _, ?_, ?_, hch⟩
      · simp [Nat.add_assoc]
      · rw [Nat.add_sub_cancel_left, List.get?_append_right (Nat.le_refl _)]
        simp
    · rw [if_neg hch] at htr
      subst hty htr hcons
      refine ⟨by simp [hch], ?_, by simp⟩
      intro p hp
      cases hp
  rcases hp : arg.pad with _ | reg
  · rw [lowerOneArg, hp] at h
    rcases hm : arg.mode with _ | attrs | ⟨a, b⟩ | ca | ⟨attrs, extra, os⟩ <;>
      rw [hm] at h <;> dsimp only [Option.bind_eq_bind', Option.some_bind'] at h
    · simp only [Option.some.injEq, Prod.mk.injEq] at h
      obtain ⟨h1, h2, h3⟩ := h
      subst h1 h2 h3
      exact ⟨rfl, rfl, fun p hp => absurd hp (List.not_mem_nil p), by simp⟩
    · simp only [Option.some.injEq, Prod.mk.injEq] at h
      obtain ⟨h1, h2, h3⟩ := h
      subst h1 h2 h3
      obtain ⟨hA, hB, hC⟩ := hsingle [] arg.layout.immediate rfl rfl rfl
      exact ⟨rfl, hA, hB, hC⟩
    · simp only [Option.some.injEq, Prod.mk.injEq] at h
      obtain ⟨h1, h2, h3⟩ := h
      subst h1 h2 h3
      exact ⟨rfl, rfl, fun p hp => absurd hp (List.not_mem_nil p), by simp⟩
    · rcases hc : ca.llvmType with _ | t
      · rw [hc] at h
        simp at h
      · rw [hc] at h
        dsimp only [Option.bind_eq_bind', Option.some_bind'] at h
        simp only [Option.some.injEq, Prod.mk.injEq] at h
        obtain ⟨h1, h2, h3⟩ := h
        subst h1 h2 h3
        obtain ⟨hA, hB, hC⟩ := hsingle [] t rfl rfl rfl
        exact ⟨by dsimp only; rw [hc]; rfl, hA, hB, hC⟩
    · rcases extra with _ | extra
      · simp only [Option.some.injEq, Prod.mk.injEq] at h
        obtain ⟨h1, h2, h3⟩ := h
        subst h1 h2 h3
        obtain ⟨hA, hB, hC⟩ := hsingle [] (LLType.ptr arg.layout.memTy 0) rfl rfl rfl
        exact ⟨rfl, hA, hB, hC⟩
      · simp only [Option.some.injEq, Prod.mk.injEq] at h
        obtain ⟨h1, h2, h3⟩ := h
        subst h1 h2 h3
        exact ⟨rfl, rfl, fun p hp => absurd hp (List.not_mem_nil p), by simp⟩
  · rw [lowerOneArg, hp] at h
    dsimp only at h
    rcases hreg : reg.llvmType with _ | tp
    · rw [hreg] at h
      simp at h
    · rw [hreg] at h
      rcases hm : arg.mode with _ | attrs | ⟨a, b⟩ | ca | ⟨attrs, extra, os⟩ <;>
        rw [hm] at h <;>
        try dsimp only [Option.bind_eq_bind', Option.some_bind'] at h
      · simp only [Option.some.injEq, Prod.mk.injEq] at h
        obtain ⟨h1, h2, h3⟩ := h
        subst h1 h2 h3
        exact ⟨rfl, rfl, fun p hp => absurd hp (List.not_mem_nil p), by simp⟩
      · simp only [Option.some.injEq, Prod.mk.injEq] at h
        obtain ⟨h1, h2, h3⟩ := h
        subst h1 h2 h3
        obtain ⟨hA, hB, hC⟩ := hsingle [tp] arg.layout.immediate rfl rfl rfl
        exact ⟨rfl, hA, hB, hC⟩
      · simp only [Option.some.injEq, Prod.mk.injEq] at h
        obtain ⟨h1, h2, h3⟩ := h
        subst h1 h2 h3
        exact ⟨rfl, rfl, fun p hp => absurd hp (List.not_mem_nil p), by simp⟩
      · rcases hc : ca.llvmType with _ | t
        · rw [hc] at h
          simp at h
        · rw [hc] at h
          dsimp only [Option.bind_eq_bind', Option.some_bind'] at h
          simp only [Option.some.injEq, Prod.mk.injEq] at h
          obtain ⟨h1, h2, h3⟩ := h
          subst h1 h2 h3
          obtain ⟨hA, hB, hC⟩ := hsingle [tp] t rfl rfl rfl
          exact ⟨by dsimp only; rw [hc]; rfl, hA, hB, hC⟩
      · rcases extra with _ | extra
        · simp only [Option.some.injEq, Prod.mk.injEq] at h
          obtain ⟨h1, h2, h3⟩ := h
          subst h1 h2 h3
          obtain ⟨hA, hB, hC⟩ := hsingle [tp] (LLType.ptr arg.layout.memTy 0) rfl rfl rfl
          exact ⟨rfl, hA, hB, hC⟩
        · simp only [Option.some.injEq, Prod.mk.injEq] at h
          obtain ⟨h1, h2, h3⟩ := h
          subst h1 h2 h3
          exact ⟨rfl, rfl, fun p hp => absurd hp (List.not_mem_nil p), by simp⟩

/-- Full characterization of the argument loop: consulted types are the
single-slot pre-types of all arguments in order, recorded entries are
exactly the changed consulted slots with strictly increasing in-range
indices pointing at the classified emitted types. -/
theorem lowerArgs_spec (cx : CxM) : ∀ (args : List ArgAbiM) (idx : Nat)
    (tys : List LLType) (tr : List (Nat × LLType)) (cons : List LLType),
    lowerArgs cx args idx = some (tys, tr, cons) →
    cons = args.filterMap (fun arg =>
      match arg.mode with
      | PassModeM.direct _ => some arg.layout.immediate
      | PassModeM.cast c => c.llvmType
      | PassModeM.indirect _ none _ => some (LLType.ptr arg.layout.memTy 0)
      | _ => none) ∧
    tr.map Prod.snd = cons.filter (fun t => (cx.classify t).2) ∧
    (∀ p ∈ tr, idx ≤ p.1 ∧ p.1 < idx + tys.length ∧
      tys.get? (p.1 - idx) = some (cx.classify p.2).1 ∧
      (cx.classify p.2).2 = true) ∧
    List.Pairwise (fun p q => p.1 < q.1) tr := by
  intro args
  induction args with
  | nil =>
    intro idx tys tr cons h
    rw [lowerArgs_nil] at h
    simp only [Option.some.injEq, Prod.mk.injEq] at h
    obtain ⟨h1, h2, h3⟩ := h
    subst h1 h2 h3
    exact ⟨rfl, rfl, fun p hp => absurd hp (List.not_mem_nil p), by simp⟩
  | cons a rest ih =>
    intro idx tys tr cons h
    simp only [lowerArgs] at h
    rcases hA : lowerOneArg cx a idx with _ | ⟨tysA, trA, consA⟩
    · rw [hA] at h
      simp at h
    · rw [hA] at h
      dsimp only [Option.bind_eq_bind', Option.some_bind'] at h
      rcases hB : lowerArgs cx rest (idx + tysA.length)
          with _ | ⟨tysB, trB, consB⟩
      · rw [hB] at h
        simp at h
      · rw [hB] at h
        simp only [Option.some_bind', Option.some.injEq, Prod.mk.injEq] at h
        obtain ⟨h1, h2, h3⟩ := h
        subst h1 h2 h3
        obtain ⟨hca, hma, hba, hpa⟩ := lowerOneArg_spec cx a idx _ _ _ hA
        obtain ⟨hcb, hmb, hbb, hpb⟩ := ih _ _ _ _ hB
        refine ⟨?_, ?_, ?_, ?_⟩
        · rw [List.filterMap_cons]
          rcases hga : (match a.mode with
            | PassModeM.direct _ => some a.layout.immediate
            | PassModeM.cast c => c.llvmType
            | PassModeM.indirect _ none _ => some (LLType.ptr a.layout.memTy 0)
            | _ => none) with _ | b
          · rw [hga] at hca
            rw [hca, hcb, hga]
            rfl
          · rw [hga] at hca
            rw [hca, hcb, hga]
            rfl
        · rw [List.map_append, List.filter_append, hma, hmb]
        · intro p hp
          rcases List.mem_append.mp hp with hp | hp
          · obtain ⟨hb1, hb2, hb3, hb4⟩ := hba p hp
            refine ⟨hb1, ?_, ?_, hb4⟩
            · rw [List.length_append]
              omega
            · rw [List.get?_append]
              · exact hb3
              · omega
          · obtain ⟨hb1, hb2, hb3, hb4⟩ := hbb p hp
            refine ⟨by omega, ?_, ?_, hb4⟩
            · rw [List.length_append]
              omega
            · rw [List.get?_append_right (by omega)]
              have heq : p.1 - idx - tysA.length = p.1 - (idx + tysA.length) := by
                omega
              rw [heq]
              exact hb3
        · rw [List.pairwise_append]
          refine ⟨hpa, hpb, ?_⟩
          intro x hx y hy
          obtain ⟨hx1, hx2, _, _⟩ := hba x hx
          obtain ⟨hy1, _, _, _⟩ := hbb y hy
          omega

/-- find? by key hits the listed entry when keys are strictly
increasing. -/
theorem find_key_of_pairwise : ∀ (l : List (Nat × LLType)),
    List.Pairwise (fun p q => p.1 < q.1) l →
    ∀ p ∈ l, l.find? (fun t => t.1 == p.1) = some p := by
  intro l
  induction l with
  | nil => intro _ p hp; cases hp
  | cons a rest ih =>
    intro hpw p hp
    rcases List.mem_cons.mp hp with rfl | hp
    · simp [List.find?]
    · have hlt : a.1 < p.1 := (List.pairwise_cons.mp hpw).1 p hp
      have hne2 : (a.1 == p.1) = false := by
        simp only [beq_eq_false_iff_ne, ne_eq]
        omega
      simp only [List.find?, hne2]
      exact ih (List.pairwise_cons.mp hpw).2 p hp

/-- find? by key misses when the key is not listed. -/
theorem find_key_none : ∀ (l : List (Nat × LLType)) (k : Nat),
    (∀ t, (k, t) ∉ l) → l.find? (fun t => t.1 == k) = none := by
  intro l
  induction l with
  | nil => intro k _; rfl
  | cons a rest ih =>
    intro k hk
    obtain ⟨a1, a2⟩ := a
    have hne2 : (a1 == k) = false := by
      simp only [beq_eq_false_iff_ne, ne_eq]
      intro he
      subst he
      exact hk a2 (List.mem_cons_self _ _)
    simp only [List.find?, hne2]
    exact ih k (fun t ht => hk t (List.mem_cons_of_mem _ ht))

/-- get_param against an empty remap table returns the raw parameter. -/
theorem builderGetParam_empty (fnty : LLType) (params : List LLType) (k : Nat) :
    builderGetParam [] fnty params k = params.get? k := by
  rw [builderGetParam]
  rcases hv : params.get? k with _ | v
  · rfl
  · rfl

/-- get_param against a singleton remap table keyed by the current
function type follows the table's entry for the index. -/
theorem builderGetParam_single (fnty : LLType) (params : List LLType)
    (rec0 : Option LLType × List (Nat × LLType)) (k : Nat) (v : LLType)
    (hv : params.get? k = some v) :
    builderGetParam [(fnty, rec0)] fnty params k =
      (match rec0.2.find? (fun t => t.1 == k) with
       | some found => some found.2
       | none => some v) := by
  rw [builderGetParam, hv]
  have hfind : List.find? (fun e => LLType.beq e.1 fnty) [(fnty, rec0)]
      = some (fnty, rec0) :=
    List.find?_cons_of_pos _ (LLType.beq_refl fnty)
  dsimp only [Option.bind_eq_bind', Option.some_bind']
  rw [hfind]

/-- C1 (amended): during signature lowering the return type and the
single-slot argument types (Direct, Cast, sized Indirect) are the types
passed through the classify collaborator, in call order; padding, Pair,
unsized-Indirect and hidden-return slots are emitted unclassified.  A
RemappedTypeRecord keyed by the final concrete function type is
recorded if and only if at least one consulted classification reported
a change, capturing the original return type when it changed and the
changed slots' indices with their original types; get_param then
reinterprets exactly the recorded slots back to their original types
and leaves every other parameter untouched. -/
theorem claim_C1_amended (cx : CxM) (f : FnAbiM) (r : FnLowering)
    (h : fnLlvmType cx f = some r) :
    ∃ ret0 entries,
      retPreType f = some ret0 ∧
      r.consulted = ret0 :: f.args.filterMap (fun arg =>
        match arg.mode with
        | PassModeM.direct _ => some arg.layout.immediate
        | PassModeM.cast c => c.llvmType
        | PassModeM.indirect _ none _ => some (LLType.ptr arg.layout.memTy 0)
        | _ => none) ∧
      r.retTy = (cx.classify ret0).1 ∧
      r.record = (if entries.isEmpty ∧ (cx.classify ret0).2 = false then none
        else some ((if (cx.classify ret0).2 then some ret0 else none),
          entries)) ∧
      (r.record = none ↔ ∀ t ∈ r.consulted, (cx.classify t).2 = false) ∧
      entries.map Prod.snd = (f.args.filterMap (fun arg =>
        match arg.mode with
        | PassModeM.direct _ => some arg.layout.immediate
        | PassModeM.cast c => c.llvmType
        | PassModeM.indirect _ none _ => some (LLType.ptr arg.layout.memTy 0)
        | _ => none)).filter (fun t => (cx.classify t).2) ∧
      (∀ p ∈ entries, (cx.classify p.2).2 = true ∧
        r.params.get? p.1 = some (cx.classify p.2).1) ∧
      (∀ p ∈ entries,
        builderGetParam (match r.record with
          | some rec0 => [(r.fnty, rec0)]
          | none => []) r.fnty r.params p.1 = some p.2) ∧
      (∀ k, k < r.params.length → (∀ t, (k, t) ∉ entries) →
        builderGetParam (match r.record with
          | some rec0 => [(r.fnty, rec0)]
          | none => []) r.fnty r.params k = r.params.get? k) := by
  rw [fnLlvmType] at h
  rcases hr0 : retPreType f with _ | ret0
  · rw [hr0] at h
    simp at h
  · rw [hr0] at h
    dsimp only [Option.bind_eq_bind', Option.some_bind'] at h
    rcases hla : lowerArgs cx f.args (sretParams f).length
        with _ | ⟨argTys, trE, consE⟩
    · rw [hla] at h
      simp at h
    · rw [hla] at h
      dsimp only [Option.bind_eq_bind', Option.some_bind'] at h
      injection h with h
      subst h
      obtain ⟨hcons, hmap, hbounds, hpw⟩ := lowerArgs_spec cx f.args _ _ _ _ hla
      refine ⟨ret0, trE, rfl, ?_, rfl, ?_, ?_, ?_, ?_, ?_, ?_⟩
      · show ret0 :: consE = _
        rw [hcons]
      · show (if !trE.isEmpty ||
            (if (cx.classify ret0).2 then some ret0 else none).isSome
          then some ((if (cx.classify ret0).2 then some ret0 else none), trE)
          else none) = _
        rcases he : trE.isEmpty <;> rcases hc2 : (cx.classify ret0).2 <;>
          simp [he, hc2]
      · show (if !trE.isEmpty ||
            (if (cx.classify ret0).2 then some ret0 else none).isSome
          then some ((if (cx.classify ret0).2 then some ret0 else none), trE)
          else none) = none ↔
          ∀ t ∈ ret0 :: consE, (cx.classify t).2 = false
        constructor
        · intro hrec
          rcases he : trE.isEmpty <;> rw [he] at hrec <;>
            rcases hc2 : (cx.classify ret0).2 <;> rw [hc2] at hrec <;>
            simp at hrec
          intro t ht
          rcases List.mem_cons.mp ht with rfl | ht
          · exact hc2
          · have htre : trE = [] := List.isEmpty_iff.mp he
            rw [htre] at hmap
            simp only [List.map_nil] at hmap
            have hfil := hmap.symm
            rw [List.filter_eq_nil_iff] at hfil
            have := hfil t ht
            simpa using this
        · intro hall
          have hc2 : (cx.classify ret0).2 = false :=
            hall ret0 (List.mem_cons_self _ _)
          have hfil : consE.filter (fun t => (cx.classify t).2) = [] := by
            rw [List.filter_eq_nil_iff]
            intro t ht
            have := hall t (List.mem_cons_of_mem _ (by rw [hcons] at ht ⊢; exact ht))
            simp [this]
          have htre : trE = [] := by
            have := hmap
            rw [hfil] at this
            exact List.map_eq_nil_iff.mp this
          rw [htre, hc2]
          simp
      · rw [hmap, hcons]
      · intro p hp
        obtain ⟨hb1, hb2, hb3, hb4⟩ := hbounds p hp
        refine ⟨hb4, ?_⟩
        show (sretParams f ++ argTys).get? p.1 = _
        rw [List.get?_append_right hb1]
        exact hb3
      · intro p hp
        have hne : trE.isEmpty = false := by
          cases htre : trE
          · rw [htre] at hp
            exact absurd hp (List.not_mem_nil p)
          · rfl
        obtain ⟨hb1, hb2, hb3, hb4⟩ := hbounds p hp
        have hv : (sretParams f ++ argTys).get? p.1
            = some (cx.classify p.2).1 := by
          rw [List.get?_append_right hb1]
          exact hb3
        show builderGetParam (match (if !trE.isEmpty ||
            (if (cx.classify ret0).2 then some ret0 else none).isSome
          then some ((if (cx.classify ret0).2 then some ret0 else none), trE)
          else none) with
          | some rec0 => [(LLType.func (sretParams f ++ argTys)
              (cx.classify ret0).1 f.c_variadic, rec0)]
          | none => []) _ _ p.1 = some p.2
        have hcnd : (!trE.isEmpty ||
            (if (cx.classify ret0).2 then some ret0 else none).isSome) = true := by
          rw [hne]
          rfl
        rw [if_pos hcnd]
        dsimp only
        rw [builderGetParam_single _ _ _ _ _ hv]
        rw [find_key_of_pairwise trE hpw p hp]
      · intro k hk hnot
        show builderGetParam (match (if !trE.isEmpty ||
            (if (cx.classify ret0).2 then some ret0 else none).isSome
          then some ((if (cx.classify ret0).2 then some ret0 else none), trE)
          else none) with
          | some rec0 => [(LLType.func (sretParams f ++ argTys)
              (cx.classify ret0).1 f.c_variadic, rec0)]
          | none => []) _ _ k = (sretParams f ++ argTys).get? k
        rcases hv : (sretParams f ++ argTys).get? k with _ | v
        · rw [List.get?_eq_none] at hv
          have hk2 : k < (sretParams f ++ argTys).length := hk
          omega
        · by_cases hcnd : (!trE.isEmpty ||
              (if (cx.classify ret0).2 then some ret0 else none).isSome) = true
          · rw [if_pos hcnd]
            dsimp only
            rw [builderGetParam_single _ _ _ _ _ hv]
            rw [find_key_none trE k hnot]
          · rw [if_neg hcnd]
            dsimp only
            rw [builderGetParam_empty]
            exact hv

/-- C1 counterexample: the claim says every emitted parameter slot's
type passes through the classify collaborator and a record is made iff
any classification reported a change; but a Pair argument's two slots
are emitted as the raw pair element types (i128 here), although the
classifier maps i128 to a different type and reports a change, and no
RemappedTypeRecord is inserted. -/
theorem claim_C1_counterexample :
    fnLlvmType c1cx c1fn = some c1res ∧
    c1res.params = [c1A, c1A] ∧
    (c1cx.classify c1A).2 = true ∧
    (c1cx.classify c1A).1 ≠ c1A ∧
    c1res.record = none :=
  ⟨rfl, rfl, rfl, fun hcontra => LLType.noConfusion hcontra, rfl⟩

/-- Witness for the amended C1 at a concrete descriptor and
collaborator. -/
theorem claim_C1_amended_witness :
    ∃ ret0 entries,
      retPreType c1wfn = some ret0 ∧
      c1wres.consulted = ret0 :: c1wfn.args.filterMap (fun arg =>
        match arg.mode with
        | PassModeM.direct _ => some arg.layout.immediate
        | PassModeM.cast c => c.llvmType
        | PassModeM.indirect _ none _ => some (LLType.ptr arg.layout.memTy 0)
        | _ => none) ∧
      c1wres.retTy = (c1cx.classify ret0).1 ∧
      c1wres.record = (if entries.isEmpty ∧ (c1cx.classify ret0).2 = false
        then none
        else some ((if (c1cx.classify ret0).2 then some ret0 else none),
          entries)) ∧
      (c1wres.record = none ↔
        ∀ t ∈ c1wres.consulted, (c1cx.classify t).2 = false) ∧
      entries.map Prod.snd = (c1wfn.args.filterMap (fun arg =>
        match arg.mode with
        | PassModeM.direct _ => some arg.layout.immediate
        | PassModeM.cast c => c.llvmType
        | PassModeM.indirect _ none _ => some (LLType.ptr arg.layout.memTy 0)
        | _ => none)).filter (fun t => (c1cx.classify t).2) ∧
      (∀ p ∈ entries, (c1cx.classify p.2).2 = true ∧
        c1wres.params.get? p.1 = some (c1cx.classify p.2).1) ∧
      (∀ p ∈ entries,
        builderGetParam (match c1wres.record with
          | some rec0 => [(c1wres.fnty, rec0)]
          | none => []) c1wres.fnty c1wres.params p.1 = some p.2) ∧
      (∀ k, k < c1wres.params.length → (∀ t, (k, t) ∉ entries) →
        builderGetParam (match c1wres.record with
          | some rec0 => [(c1wres.fnty, rec0)]
          | none => []) c1wres.fnty c1wres.params k
          = c1wres.params.get? k) :=
  claim_C1_amended c1cx c1wfn c1wres rfl

/-- Witness for C4 at a concrete descriptor. -/
theorem claim_C4_witness :
    c4res.params.length =
      (c4fn.args.filter (fun a => decide (a.mode ≠ PassModeM.ignore))).length ∧
    c4res.params = c4fn.args.filterMap (fun a =>
      match a.mode with
      | PassModeM.direct _ => some ((c4cx.classify a.layout.immediate).1)
      | _ => none) ∧
    ((∀ t, c4cx.classify t = (t, false)) →
      c4res.params = c4fn.args.filterMap (fun a =>
        match a.mode with
        | PassModeM.direct _ => some a.layout.immediate
        | _ => none)) :=
  claim_C4 c4cx c4fn c4res
    (fun a ha => by
      rcases List.mem_cons.mp ha with rfl | ha
      · exact ⟨rfl, Or.inr ⟨ArgAttributes.new, rfl⟩⟩
      · rcases List.mem_cons.mp ha with rfl | ha
        · exact ⟨rfl, Or.inl rfl⟩
        · exact absurd ha (List.not_mem_nil a))
    (fun x e o hcontra => PassModeM.noConfusion hcontra)
    rfl

/-- Length of a fully in-bounds slice. -/
theorem byteSlice_length (l : List α) (s n : Nat) (h : s + n ≤ l.length) :
    (byteSlice l s n).length = n := by
  simp [byteSlice]
  omega

/-- The run decomposition of a mask covers its length exactly. -/
theorem runLengths_sum : ∀ l : List Bool,
    ((runLengths l).map Prod.snd).sum = l.length := by
  intro l
  induction l with
  | nil => rfl
  | cons b rest ih =>
    rw [runLengths]
    rcases hr : runLengths rest with _ | ⟨⟨c, n⟩, t⟩
    · rw [hr] at ih
      simp at ih
      simp [← ih]
    · rw [hr] at ih
      dsimp only
      by_cases hbc : b = c
      · rw [if_pos hbc]
        simp at ih ⊢
        omega
      · rw [if_neg hbc]
        simp at ih ⊢
        omega

/-- Rendered runs cover exactly the bytes the runs describe. -/
theorem chunkVals_sizes (ps : Nat) (bytes : List Nat) :
    ∀ (rl : List (Bool × Nat)) (off : Nat),
    off + (rl.map Prod.snd).sum ≤ bytes.length →
    ((chunkVals bytes off rl).map (ConstChunk.sizeBytes ps)).sum
      = (rl.map Prod.snd).sum := by
  intro rl
  induction rl with
  | nil => intro off _; rfl
  | cons c t ih =>
    intro off hoff
    obtain ⟨b, n⟩ := c
    rw [chunkVals]
    simp only [List.map_cons, List.sum_cons] at hoff ⊢
    have hn : off + n ≤ bytes.length := by omega
    have hrec := ih (off + n) (by omega)
    rcases b
    · simp only [if_neg (by simp : ¬ (false = true))]
      rw [hrec]
      rfl
    · simp only [if_pos rfl]
      show (byteSlice bytes off n).length + _ = _
      rw [byteSlice_length _ _ _ hn, hrec]

/-- The defined/undefined splitter covers the span exactly: the summed
field byte lengths equal the span length, under any threshold policy. -/
theorem appendChunks_sizes (th : Option Nat) (alloc : AllocM)
    (start stop ps : Nat) (h1 : start ≤ stop)
    (h2 : stop ≤ alloc.bytes.length)
    (h3 : alloc.initMask.length = alloc.bytes.length) :
    ((append_chunks_of_init_and_uninit_bytes th alloc start stop).map
      (ConstChunk.sizeBytes ps)).sum = stop - start := by
  have hlen : (byteSlice alloc.initMask start (stop - start)).length
      = stop - start := byteSlice_length _ _ _ (by omega)
  have hsum : ((runLengths (byteSlice alloc.initMask start
      (stop - start))).map Prod.snd).sum = stop - start := by
    rw [runLengths_sum]
    exact hlen
  have hallow : ((chunkVals alloc.bytes start (runLengths (byteSlice
      alloc.initMask start (stop - start)))).map
      (ConstChunk.sizeBytes ps)).sum = stop - start := by
    rw [chunkVals_sizes ps alloc.bytes _ start (by omega)]
    exact hsum
  have hcollapsed : (([ConstChunk.bytes (byteSlice alloc.bytes start
      (stop - start))]).map (ConstChunk.sizeBytes ps)).sum
      = stop - start := by
    show (byteSlice alloc.bytes start (stop - start)).length + 0 = _
    rw [byteSlice_length _ _ _ (by omega)]
    omega
  have hdefault : ((match runLengths (byteSlice alloc.initMask start
        (stop - start)) with
      | [c] => chunkVals alloc.bytes start [c]
      | _ => [ConstChunk.bytes (byteSlice alloc.bytes start
          (stop - start))]).map (ConstChunk.sizeBytes ps)).sum
      = stop - start := by
    rcases hrl : runLengths (byteSlice alloc.initMask start (stop - start))
        with _ | ⟨c, t⟩
    · exact hcollapsed
    · rcases t with _ | ⟨c2, t2⟩
      · rw [hrl] at hsum
        rw [chunkVals_sizes ps alloc.bytes [c] start
          (by rw [hsum]; omega)]
        exact hsum
      · exact hcollapsed
  unfold append_chunks_of_init_and_uninit_bytes
  rcases th with _ | m
  · dsimp only
    rw [if_neg (by simp)]
    exact hdefault
  · dsimp only
    by_cases hm : stop - start ≤ m
    · rw [if_pos (by simp [hm])]
      exact hallow
    · rw [if_neg (by simp [hm])]
      exact hdefault

/-- Rendered runs contain no relocation fields. -/
theorem chunkVals_no_reloc (bytes : List Nat) :
    ∀ (rl : List (Bool × Nat)) (off : Nat)
    (c : ConstChunk), c ∈ chunkVals bytes off rl →
    ∀ id p a, c ≠ ConstChunk.relocPtr id p a := by
  intro rl
  induction rl with
  | nil => intro off c hc; cases hc
  | cons r t ih =>
    intro off c hc id p a
    obtain ⟨b, n⟩ := r
    rw [chunkVals] at hc
    rcases List.mem_cons.mp hc with rfl | hc
    · rcases b <;> simp
    · exact ih (off + n) c hc id p a

/-- The splitter never emits a relocation field. -/
theorem appendChunks_no_reloc (th : Option Nat) (alloc : AllocM)
    (start stop : Nat) (c : ConstChunk)
    (hc : c ∈ append_chunks_of_init_and_uninit_bytes th alloc start stop) :
    ∀ id p a, c ≠ ConstChunk.relocPtr id p a := by
  intro id p a
  unfold append_chunks_of_init_and_uninit_bytes at hc
  rcases hite : (match th with
      | some m => decide (stop - start ≤ m)
      | none => false) with _ | _
  · rw [hite, if_neg (by simp)] at hc
    rcases hrl : runLengths (byteSlice alloc.initMask start (stop - start))
        with _ | ⟨c1, t⟩
    · rw [hrl] at hc
      rcases List.mem_singleton.mp hc with rfl
      simp
    · rw [hrl] at hc
      rcases t with _ | ⟨c2, t2⟩
      · exact chunkVals_no_reloc alloc.bytes [c1] start c hc id p a
      · rcases List.mem_singleton.mp hc with rfl
        simp
  · rw [hite, if_pos rfl] at hc
    exact chunkVals_no_reloc alloc.bytes _ start c hc id p a

/-- Offset annotation distributes over append, shifting the second part
by the first part's total size. -/
theorem withOffsets_append (ps : Nat) : ∀ (l1 l2 : List ConstChunk) (off : Nat),
    withOffsets ps off (l1 ++ l2) = withOffsets ps off l1 ++
      withOffsets ps (off + ((l1.map (ConstChunk.sizeBytes ps)).sum)) l2 := by
  intro l1
  induction l1 with
  | nil => intro l2 off; simp [withOffsets]
  | cons c t ih =>
    intro l2 off
    rw [List.cons_append, withOffsets, withOffsets, ih]
    simp [Nat.add_assoc]

/-- A reloc-free field list contributes no relocation fields at any
offset. -/
theorem relocFields_of_no_reloc (ps : Nat) : ∀ (l : List ConstChunk) (off : Nat),
    (∀ c ∈ l, ∀ id p a, c ≠ ConstChunk.relocPtr id p a) →
    relocFields (withOffsets ps off l) = [] := by
  intro l
  induction l with
  | nil => intro off _; rfl
  | cons c t ih =>
    intro off hl
    have hrest := ih (off + ConstChunk.sizeBytes ps c)
      (fun d hd => hl d (List.mem_cons_of_mem _ hd))
    have hc := hl c (List.mem_cons_self _ _)
    rcases c with bs | n | ⟨id, p, a⟩
    · rw [withOffsets]
      simp only [relocFields, List.filterMap_cons] at hrest ⊢
      exact hrest
    · rw [withOffsets]
      simp only [relocFields, List.filterMap_cons] at hrest ⊢
      exact hrest
    · exact absurd rfl (hc id p a)

/-- The relocation walk covers the remaining image exactly and places
each relocation as a pointer field at precisely its image offset, in
order. -/
theorem encodeRelocChain_spec (ps instrAS : Nat) (isFn : Nat → Bool)
    (th : Option Nat) (alloc : AllocM)
    (h3 : alloc.initMask.length = alloc.bytes.length) :
    ∀ (relocs : List (Nat × Nat)) (next : Nat),
    relocsOk ps alloc.len relocs next = true → next ≤ alloc.len →
    (((encodeRelocChain ps instrAS isFn th alloc relocs next).map
      (ConstChunk.sizeBytes ps)).sum = alloc.len - next) ∧
    relocFields (withOffsets ps next
      (encodeRelocChain ps instrAS isFn th alloc relocs next)) = relocs := by
  intro relocs
  induction relocs with
  | nil =>
    intro next hok hle
    rw [encodeRelocChain, if_pos (by omega)]
    constructor
    · exact appendChunks_sizes th alloc next alloc.len ps hle
        (Nat.le_refl _) h3
    · exact relocFields_of_no_reloc ps _ next
        (fun c hc => appendChunks_no_reloc th alloc next alloc.len c hc)
  | cons q rest ih =>
    intro next hok hle
    obtain ⟨off, id⟩ := q
    rw [relocsOk] at hok
    simp only [Bool.and_eq_true, decide_eq_true_eq] at hok
    obtain ⟨⟨hnext, hbound⟩, hokr⟩ := hok
    obtain ⟨ihs, ihr⟩ := ih (off + ps) hokr (by omega)
    rw [encodeRelocChain]
    have hpre : ((if off > next then
        append_chunks_of_init_and_uninit_bytes th alloc next off
        else []).map (ConstChunk.sizeBytes ps)).sum = off - next := by
      by_cases hgt : off > next
      · rw [if_pos hgt]
        exact appendChunks_sizes th alloc next off ps (by omega) (by
          show off ≤ alloc.bytes.length
          have : alloc.len = alloc.bytes.length := rfl
          omega) h3
      · rw [if_neg hgt]
        simp
        omega
    have hprenr : ∀ c ∈ (if off > next then
        append_chunks_of_init_and_uninit_bytes th alloc next off
        else []), ∀ id2 p a, c ≠ ConstChunk.relocPtr id2 p a := by
      intro c hc id2 p a
      by_cases hgt : off > next
      · rw [if_pos hgt] at hc
        exact appendChunks_no_reloc th alloc next off c hc id2 p a
      · rw [if_neg hgt] at hc
        cases hc
    constructor
    · rw [List.map_append, List.sum_append, hpre, List.map_cons,
        List.sum_cons]
      show off - next + (ConstChunk.sizeBytes ps _ + _) = _
      rw [ihs]
      show off - next + (ps + (alloc.len - (off + ps))) = alloc.len - next
      omega
    · rw [withOffsets_append, hpre]
      rw [relocFields, List.filterMap_append]
      have h1 : List.filterMap (fun p =>
          match p.2 with
          | ConstChunk.relocPtr id2 _ _ => some (p.1, id2)
          | _ => none) (withOffsets ps next (if off > next then
            append_chunks_of_init_and_uninit_bytes th alloc next off
            else [])) = [] := by
        have := relocFields_of_no_reloc ps _ next hprenr
        simpa [relocFields] using this
      rw [h1, List.nil_append]
      rw [withOffsets, List.filterMap_cons]
      have hoff : next + (off - next) = off := by omega
      rw [hoff]
      dsimp only
      have hsz : ∀ x y z, ConstChunk.sizeBytes ps (ConstChunk.relocPtr x y z)
          = ps := fun _ _ _ => rfl
      rw [hsz]
      have h2 : List.filterMap (fun p =>
          match p.2 with
          | ConstChunk.relocPtr id2 _ _ => some (p.1, id2)
          | _ => none) (withOffsets ps (off + ps)
            (encodeRelocChain ps instrAS isFn th alloc rest (off + ps)))
          = rest := by
        simpa [relocFields] using ihr
      rw [h2]

/-- C2: for every memory image with an in-bounds, ascending,
non-overlapping relocation list, the encoder produces a packed struct
whose summed field byte lengths (pointer fields counted at the target
pointer width) equal the image's total length exactly, and whose
relocation fields appear in order at exactly the relocations' offsets. -/
theorem claim_C2 (ps instrAS : Nat) (isFn : Nat → Bool) (th : Option Nat)
    (alloc : AllocM)
    (h3 : alloc.initMask.length = alloc.bytes.length)
    (hrel : relocsOk ps alloc.len alloc.relocations 0 = true) :
    (((const_alloc_to_llvm ps instrAS isFn th alloc).fields).map
      (ConstChunk.sizeBytes ps)).sum = alloc.len ∧
    relocFields (withOffsets ps 0
      (const_alloc_to_llvm ps instrAS isFn th alloc).fields)
      = alloc.relocations ∧
    (const_alloc_to_llvm ps instrAS isFn th alloc).packed = true := by
  obtain ⟨hs, hr⟩ := encodeRelocChain_spec ps instrAS isFn th alloc h3
    alloc.relocations 0 hrel (Nat.zero_le _)
  exact ⟨by simpa using hs, hr, rfl⟩

/-- Witness for C2 at a concrete image. -/
theorem claim_C2_witness :
    (((const_alloc_to_llvm 8 0 (fun _ => false) none c2alloc).fields).map
      (ConstChunk.sizeBytes 8)).sum = c2alloc.len ∧
    relocFields (withOffsets 8 0
      (const_alloc_to_llvm 8 0 (fun _ => false) none c2alloc).fields)
      = c2alloc.relocations ∧
    (const_alloc_to_llvm 8 0 (fun _ => false) none c2alloc).packed = true :=
  claim_C2 8 0 (fun _ => false) none c2alloc rfl (by decide)

/-- C8: the defined/undefined splitter obeys the threshold policy.  If
a threshold is supplied and the span length is at or under it, every
maximal defined or undefined sub-run is rendered individually (defined
runs as literal byte arrays of the image's bytes, undefined runs as
typed undefined placeholders).  If the threshold is absent (the
default) or exceeded, a single-run span is rendered as that one run,
and a mixed span collapses to one literal byte-array constant covering
the whole span with the raw buffer contents as filler.  In all cases
the emitted fields cover the span's length exactly. -/
theorem claim_C8 (th : Option Nat) (alloc : AllocM) (start stop ps : Nat)
    (h1 : start ≤ stop) (h2 : stop ≤ alloc.bytes.length)
    (h3 : alloc.initMask.length = alloc.bytes.length) :
    (∀ m, th = some m → stop - start ≤ m →
      append_chunks_of_init_and_uninit_bytes th alloc start stop
        = chunkVals alloc.bytes start
            (runLengths (byteSlice alloc.initMask start (stop - start)))) ∧
    ((th = none ∨ ∃ m, th = some m ∧ m < stop - start) →
      (∀ c, runLengths (byteSlice alloc.initMask start (stop - start)) = [c] →
        append_chunks_of_init_and_uninit_bytes th alloc start stop
          = chunkVals alloc.bytes start [c]) ∧
      ((runLengths (byteSlice alloc.initMask start (stop - start))).length ≠ 1 →
        append_chunks_of_init_and_uninit_bytes th alloc start stop
          = [ConstChunk.bytes (byteSlice alloc.bytes start (stop - start))])) ∧
    ((append_chunks_of_init_and_uninit_bytes th alloc start stop).map
      (ConstChunk.sizeBytes ps)).sum = stop - start := by
  refine ⟨?_, ?_, appendChunks_sizes th alloc start stop ps h1 h2 h3⟩
  · intro m hth hm
    subst hth
    unfold append_chunks_of_init_and_uninit_bytes
    dsimp only
    rw [if_pos (by simp [hm])]
  · intro hover
    constructor
    · intro c hc
      unfold append_chunks_of_init_and_uninit_bytes
      dsimp only
      rcases hover with rfl | ⟨m, rfl, hm⟩
      · rw [if_neg (by simp), hc]
      · rw [if_neg (by simp; omega), hc]
    · intro hlenne
      unfold append_chunks_of_init_and_uninit_bytes
      dsimp only
      rcases hrl : runLengths (byteSlice alloc.initMask start (stop - start))
          with _ | ⟨c, t⟩
      · rcases hover with rfl | ⟨m, rfl, hm⟩
        · rw [if_neg (by simp)]
        · rw [if_neg (by simp; omega)]
      · rcases t with _ | ⟨c2, t2⟩
        · rw [hrl] at hlenne
          simp at hlenne
        · rcases hover with rfl | ⟨m, rfl, hm⟩
          · rw [if_neg (by simp)]
          · rw [if_neg (by simp; omega)]

/-- Witness for C8 at a concrete image and threshold. -/
theorem claim_C8_witness :
    (∀ m, (some 4 : Option Nat) = some m → 4 - 0 ≤ m →
      append_chunks_of_init_and_uninit_bytes (some 4) c8alloc 0 4
        = chunkVals c8alloc.bytes 0
            (runLengths (byteSlice c8alloc.initMask 0 (4 - 0)))) ∧
    (((some 4 : Option Nat) = none ∨
        ∃ m, (some 4 : Option Nat) = some m ∧ m < 4 - 0) →
      (∀ c, runLengths (byteSlice c8alloc.initMask 0 (4 - 0)) = [c] →
        append_chunks_of_init_and_uninit_bytes (some 4) c8alloc 0 4
          = chunkVals c8alloc.bytes 0 [c]) ∧
      ((runLengths (byteSlice c8alloc.initMask 0 (4 - 0))).length ≠ 1 →
        append_chunks_of_init_and_uninit_bytes (some 4) c8alloc 0 4
          = [ConstChunk.bytes (byteSlice c8alloc.bytes 0 (4 - 0))])) ∧
    ((append_chunks_of_init_and_uninit_bytes (some 4) c8alloc 0 4).map
      (ConstChunk.sizeBytes 8)).sum = 4 - 0 :=
  claim_C8 (some 4) c8alloc 0 4 8 (by decide) (by decide) rfl

/-- C9 counterexample: the claim says the encoder yields exactly two
fields with no trailing field; under the default threshold policy it
yields three, the third a zero-length literal byte-array for the empty
trailing span. -/
theorem claim_C9_counterexample :
    c9alloc.len = 16 ∧
    c9alloc.relocations = [(8, 7)] ∧
    (const_alloc_to_llvm 8 0 (fun _ => false) none c9alloc).fields
      = [ConstChunk.bytes (byteSlice c9alloc.bytes 0 8),
         ConstChunk.relocPtr 7 (readLE (byteSlice c9alloc.bytes 8 8)) 0,
         ConstChunk.bytes []] ∧
    (const_alloc_to_llvm 8 0 (fun _ => false) none c9alloc).fields.length
      = 3 ∧
    (const_alloc_to_llvm 8 0 (fun _ => false) none c9alloc).fields.length
      ≠ 2 :=
  ⟨rfl, rfl, rfl, rfl, by decide⟩

/-- C9 (amended): a fully defined 16-byte image with one pointer-sized
relocation at offset 8 encodes, under the default threshold, to an
8-byte literal prefix, the typed pointer, and one zero-length literal
byte-array field for the empty trailing span; no nonempty field follows
the relocation. -/
theorem claim_C9_amended (bs : List Nat) (id instrAS : Nat)
    (isFn : Nat → Bool) (hlen : bs.length = 16) :
    (const_alloc_to_llvm 8 instrAS isFn none
      { bytes := bs, initMask := List.replicate 16 true,
        relocations := [(8, id)] }).fields
      = [ConstChunk.bytes (byteSlice bs 0 8),
         ConstChunk.relocPtr id (readLE (byteSlice bs 8 8))
           (if isFn id then instrAS else 0),
         ConstChunk.bytes []] ∧
    (byteSlice bs 0 8).length = 8 := by
  have hL : AllocM.len { bytes := bs, initMask := List.replicate 16 true, relocations := [(8, id)] } = 16 := hlen
  constructor
  · show encodeRelocChain 8 instrAS isFn none _ [(8, id)] 0 = _
    simp only [encodeRelocChain]
    rw [if_pos (show AllocM.len { bytes := bs, initMask := List.replicate 16 true, relocations := [(8, id)] } ≥ 8 + 8 by omega)]
    rw [if_pos (by norm_num : 8 > 0)]
    rw [hL]
    rfl
  · exact byteSlice_length _ _ _ (by omega)

/-- Witness for the amended C9 at a concrete image. -/
theorem claim_C9_amended_witness :
    (const_alloc_to_llvm 8 0 (fun _ => false) none
      { bytes := List.range 16, initMask := List.replicate 16 true,
        relocations := [(8, 7)] }).fields
      = [ConstChunk.bytes (byteSlice (List.range 16) 0 8),
         ConstChunk.relocPtr 7 (readLE (byteSlice (List.range 16) 8 8))
           (if (fun _ : Nat => false) 7 then 0 else 0),
         ConstChunk.bytes []] ∧
    (byteSlice (List.range 16) 0 8).length = 8 :=
  claim_C9_amended (List.range 16) 7 0 (fun _ => false) (by decide)
